import Mathlib

/-!
Shallow embedding of `src/migrate_gitlab.py` (a GitLab CE→EE migration
script) and proofs about the claims of its specification.

Text is modelled as `List Char`; the only line separator modelled is
`'\n'` (the script joins lines with `"\n"`).  Python dictionaries are
modelled as association lists with last-write-wins lookup.  Remote HTTP
calls are modelled by a `World` record supplying each call's response,
and the effectful functions return the list of state-changing calls they
issue alongside their result.
-/

namespace Migrate

/-- The literal path fragment `infra/` rewritten by the config rewriter. -/
def frag : List Char := ['i', 'n', 'f', 'r', 'a', '/']

/-- The namespace `viridien/` hard-coded in the negative lookbehind of
`re.sub(r"(?<!viridien/)infra/", ...)`. -/
def vir : List Char := ['v', 'i', 'r', 'i', 'd', 'i', 'e', 'n', '/']

/-- `vir` reversed: what the scanner's history must show for the
lookbehind to veto a replacement. -/
def vRev : List Char := vir.reverse

/-- `"include:"`, the token whose presence at the start of a stripped line
opens an include block. -/
def inc8 : List Char := ['i', 'n', 'c', 'l', 'u', 'd', 'e', ':']

/-- `"include"`, checked by the whole-text fast-reject. -/
def inc7 : List Char := ['i', 'n', 'c', 'l', 'u', 'd', 'e']

/-- Python `needle in text` on strings: `n` occurs as a contiguous
substring of `l`. -/
def containsSeq (n : List Char) : List Char → Bool
  | [] => n == []
  | c :: r => ((c :: r).take n.length == n) || containsSeq n r

/-- One left-to-right scan of `re.sub(r"(?<!viridien/)infra/", pre ++ "infra/", line)`.
`hist` is the reversed list of characters of the *original* line already
scanned past (the lookbehind examines the original text), and the `Nat`
counter is positive while the scanner is still consuming the tail of a
just-replaced match. -/
def subCore (pre : List Char) : List Char → List Char → Nat → List Char
  | _, [], _ => []
  | hist, c :: rest, Nat.succ k => subCore pre (c :: hist) rest k
  | hist, c :: rest, 0 =>
      if (c :: rest).take 6 = frag ∧ hist.take 9 ≠ vRev then
        pre ++ frag ++ subCore pre (c :: hist) rest 5
      else
        c :: subCore pre (c :: hist) rest 0

/-- `replace_infra` from the source: return the line unchanged when it does
not contain `infra/`, otherwise apply the guarded substitution. -/
def replace_infra (pre l : List Char) : List Char :=
  if containsSeq frag l then subCore pre [] l 0 else l

/-- `List.splitOn '\n'` written out: split a text at every newline. -/
def splitNl : List Char → List (List Char)
  | [] => [[]]
  | c :: r =>
      if c = '\n' then [] :: splitNl r
      else
        match splitNl r with
        | [] => [[c]]
        | l :: ls => (c :: l) :: ls

/-- Whether the text ends with a newline. -/
def endsNlB (s : List Char) : Bool := s.getLast? == some '\n'

/-- Python `str.splitlines()` restricted to `'\n'` separators: like
`splitNl` but without the trailing empty piece of a newline-terminated
text, and `[]` on the empty text. -/
def pySplitlines (s : List Char) : List (List Char) :=
  if s = [] then []
  else if endsNlB s then (splitNl s).dropLast
  else splitNl s

/-- `"\n".join(lines)`. -/
def joinNl : List (List Char) → List Char
  | [] => []
  | [l] => l
  | l :: ls => l ++ '\n' :: joinNl ls

/-- Reassemble the processed lines, restoring the trailing newline iff the
original text had one. -/
def assembleText (ls : List (List Char)) (b : Bool) : List Char :=
  joinNl ls ++ (if b then ['\n'] else [])

/-- Python whitespace for `lstrip()`. -/
def wsB (c : Char) : Bool := c.isWhitespace

/-- `line.lstrip()`. -/
def strippedOf (l : List Char) : List Char := l.dropWhile wsB

/-- `len(line) - len(line.lstrip())`. -/
def indentOf (l : List Char) : Nat := (l.takeWhile wsB).length

/-- `stripped.startswith("include:")`. -/
def isIncStart (s : List Char) : Bool := s.take 8 == inc8

/-- One iteration of the line loop of `prefix_infra_includes`: the state is
`some includeIndent` while inside an include block, `none` outside. -/
def stepLine (pre : List Char) (st : Option Nat) (l : List Char) :
    List Char × Option Nat :=
  let s := strippedOf l
  if isIncStart s then (replace_infra pre l, some (indentOf l))
  else
    match st with
    | some ii =>
        if s ≠ [] ∧ indentOf l ≤ ii then (l, none)
        else (replace_infra pre l, some ii)
    | none => (l, none)

/-- The full line loop. -/
def procLines (pre : List Char) (st : Option Nat) : List (List Char) → List (List Char)
  | [] => []
  | l :: ls => (stepLine pre st l).1 :: procLines pre (stepLine pre st l).2 ls

/-- `prefix_infra_includes(ci_text, prefix)` from the source. -/
def prefix_infra_includes (t pre : List Char) : List Char :=
  if containsSeq inc7 t && containsSeq frag t then
    assembleText (procLines pre none (pySplitlines t)) (endsNlB t)
  else t

/-- A sufficient condition for the scanner to copy all of `w` verbatim when
scanning `w ++ m` with history `h`: at each position either no fragment
match starts there, or the lookbehind shows `viridien/`. -/
def Copyable (m : List Char) : List Char → List Char → Prop
  | [], _ => True
  | c :: w, h =>
      ((c :: (w ++ m)).take 6 ≠ frag ∨ h.take 9 = vRev) ∧ Copyable m w (c :: h)

/-- Apply the per-line substitution only on flagged lines. -/
def applyFlag (pre : List Char) (f : Bool) (l : List Char) : List Char :=
  if f then replace_infra pre l else l

/-- Modelled from the spec: the include-block classification of each line —
`true` exactly on the lines inside an include block (the triggering
`include:` line included), entry when a stripped line starts with
`include:`, exit at the first subsequent non-blank line whose indentation
is at most the `include:` line's. -/
def blockFlags (st : Option Nat) : List (List Char) → List Bool
  | [] => []
  | l :: ls =>
      let s := strippedOf l
      if isIncStart s then true :: blockFlags (some (indentOf l)) ls
      else
        match st with
        | some ii =>
            if s ≠ [] ∧ indentOf l ≤ ii then false :: blockFlags none ls
            else true :: blockFlags (some ii) ls
        | none => false :: blockFlags none ls

/-! ## Issues, notes and the destination-side lookup maps -/

/-- A GitLab issue record; every field the script reads, each optional as
`dict.get` may return `None`. -/
structure Issue where
  iid : Option Nat := none
  title : Option String := none
  created_at : Option String := none
  state : Option String := none
  web_url : Option String := none
deriving DecidableEq, Repr

/-- Python truthiness of `dict.get(...)` for an integer field. -/
def pyTruthyNat : Option Nat → Bool
  | none => false
  | some n => n != 0

/-- Python truthiness of `dict.get(...)` for a string field. -/
def pyTruthyStr : Option String → Bool
  | none => false
  | some s => s != ""

/-- Lookup in a Python dict modelled as an insertion-ordered association
list: the latest binding for the key wins. -/
def dget [DecidableEq κ] (m : List (κ × α)) (k : κ) : Option α :=
  (m.reverse.find? fun p => decide (p.1 = k)).map (·.2)

/-- The `by_iid` dict comprehension of `build_issue_maps`: one entry per
issue with a truthy `iid`, in iteration order. -/
def by_iid_map : List Issue → List (Nat × Issue)
  | [] => []
  | i :: rest =>
      (if pyTruthyNat i.iid then [(i.iid.getD 0, i)] else []) ++ by_iid_map rest

/-- The key of an issue in the `by_title_created` dict. -/
def tcKey (i : Issue) : String × String := (i.title.getD "", i.created_at.getD "")

/-- Whether an issue is entered into `by_title_created`: both fields truthy. -/
def tcTruthy (i : Issue) : Bool := pyTruthyStr i.title && pyTruthyStr i.created_at

/-- The `by_title_created` loop of `build_issue_maps`. -/
def by_title_created_map : List Issue → List ((String × String) × Issue)
  | [] => []
  | i :: rest =>
      (if tcTruthy i then [(tcKey i, i)] else []) ++ by_title_created_map rest

/-- `build_issue_maps(ee_issues)` from the source. -/
def build_issue_maps (ee_issues : List Issue) :
    List (Nat × Issue) × List ((String × String) × Issue) :=
  (by_iid_map ee_issues, by_title_created_map ee_issues)

/-- An issue note. -/
structure Note where
  body : String := ""
deriving DecidableEq, Repr

/-- Python `str.strip()` on the character list. -/
def pyStripL (l : List Char) : List Char :=
  ((l.dropWhile wsB).reverse.dropWhile wsB).reverse

/-- Python `str.strip()`. -/
def pyStrip (s : String) : String := ⟨pyStripL s.data⟩

/-- The canonical migration-note text for a destination issue address. -/
def needle (url : String) : String := "Migrated to EE: " ++ url

/-- `ce_has_migration_note(ce_notes, ee_issue_url)` from the source: some
note's *stripped* body equals the canonical text. -/
def ce_has_migration_note (notes : List Note) (url : String) : Bool :=
  if url = "" then false
  else notes.any fun n => pyStrip n.body == needle url

/-- Outcome of `close_ce_issue_with_link`: which note body (if any) was
posted, and whether the issue was closed. -/
structure CloseResult where
  posted : Option String
  closed : Bool
deriving DecidableEq, Repr

/-- `close_ce_issue_with_link` from the source, as a function of the notes
fetched for the source issue and the destination issue's address. -/
def close_ce_issue_with_link (notes : List Note) (url : String) : CloseResult :=
  { posted :=
      if url ≠ "" ∧ ¬ce_has_migration_note notes url then some (needle url) else none
    closed := true }

/-! ## Groups and the remote world -/

/-- A non-2xx HTTP error as the script distinguishes it: whether a response
object is attached, and its status code. -/
structure HErr where
  hasResponse : Bool
  status : Nat
deriving DecidableEq, Repr

/-- The conflict test of `ensure_group`: response present with status 400
or 409. -/
def isConflict (e : HErr) : Bool :=
  e.hasResponse && (e.status == 400 || e.status == 409)

deriving instance DecidableEq for Except

/-- Result of `ensure_group` together with which remote calls it made. -/
structure EnsureResult where
  outcome : Except HErr (Nat × Bool)
  createAttempted : Bool
  relookedUp : Bool
deriving DecidableEq, Repr

/-- `ensure_group` from the source, as a function of the three remote
responses it can observe: the first lookup, the creation attempt, and the
post-conflict re-lookup. -/
def ensure_group (lookup1 : Option Nat) (createRes : Except HErr Nat)
    (lookup2 : Option Nat) : EnsureResult :=
  match lookup1 with
  | some gid => ⟨.ok (gid, false), false, false⟩
  | none =>
      match createRes with
      | .ok gid => ⟨.ok (gid, true), true, false⟩
      | .error e =>
          if isConflict e then
            match lookup2 with
            | some gid => ⟨.ok (gid, false), true, true⟩
            | none => ⟨.error e, true, true⟩
          else ⟨.error e, true, false⟩

/-- A destination or source project as the script reads it. -/
structure Project where
  id : Nat
  default_branch : Option String := none
deriving DecidableEq, Repr

/-- A repository file as returned by the single-file read: `decoded` is the
base64-decoded content, `none` when decoding fails. -/
structure FileInfo where
  decoded : Option (List Char) := none
deriving DecidableEq, Repr

/-- The error kinds a single project migration can raise. -/
inductive Err where
  | http (e : HErr)
  | ceNotFound (path : String)
  | decodeFailed
  | transferFailed
  | importNoInfo (path : String)
  | badProject
deriving DecidableEq, Repr

/-- The state-changing remote calls the script issues, in order. -/
inductive Action where
  | groupLookup (path : String)
  | groupCreate (path : String)
  | exportPost
  | exportDownload
  | importPost
  | fileGet
  | filePut
  | issuesList
  | notesList (iid : Nat)
  | notePost (iid : Nat) (body : String)
  | issueClose (iid : Nat)
deriving DecidableEq, Repr

/-- The remote responses a run can observe.  Polling loops are abstracted
into the final outcome of each wait (their real-time behaviour is out of
scope of the embedding). -/
structure World where
  eeGroup : String → Option Nat
  eeGroupCreate : String → Except HErr Nat
  eeGroupRelookup : String → Option Nat
  ceProject : String → Option Project
  eeProjectByPath : String → Option Project
  eeProjectById : Nat → Option Project
  exportWait : Nat → Except Err Unit
  downloadRes : Nat → Except Err Unit
  importRes : Except Err (Option Nat)
  importWait : Nat → Except Err Unit
  fileGet : Nat → String → Option FileInfo
  ceIssues : Nat → List Issue
  eeIssues : Nat → List Issue
  ceNotes : Nat → List Note

/-- `ee_project.get("default_branch") or "main"`. -/
def refOf (p : Project) : String :=
  match p.default_branch with
  | some s => if s = "" then "main" else s
  | none => "main"

/-- `update_ci_includes` from the source: read `.gitlab-ci.yml` at the
default branch, rewrite it, and write it back only when it changed. -/
def update_ci_includes (w : World) (pre : List Char) (eep : Project) :
    Except Err Unit × List Action :=
  match w.fileGet eep.id (refOf eep) with
  | none => (.ok (), [.fileGet])
  | some fi =>
      match fi.decoded with
      | none => (.error .decodeFailed, [.fileGet])
      | some txt =>
          if prefix_infra_includes txt pre = txt then (.ok (), [.fileGet])
          else (.ok (), [.fileGet, .filePut])

/-- The destination counterpart of a source issue: by internal id first,
else by the (title, creation timestamp) pair. -/
def matchIssue (byIid : List (Nat × Issue)) (byTC : List ((String × String) × Issue))
    (ci : Issue) : Option Issue :=
  let mEe : Option Issue :=
    match ci.iid with
    | some n => dget byIid n
    | none => none
  match mEe with
  | some e => some e
  | none => dget byTC (ci.title.getD "", ci.created_at.getD "")

/-- The remote calls issued for one source issue by the reconciliation
loop. -/
def issueActions (w : World) (byIid : List (Nat × Issue))
    (byTC : List ((String × String) × Issue)) (ci : Issue) : List Action :=
  match matchIssue byIid byTC ci with
  | none => []
  | some ee =>
      if ci.state == some "opened" then
        match ee.web_url with
        | some url =>
            if url ≠ "" then
              let iid := ci.iid.getD 0
              let cr := close_ce_issue_with_link (w.ceNotes iid) url
              [Action.notesList iid]
                ++ (match cr.posted with
                    | some b => [Action.notePost iid b]
                    | none => [])
                ++ [Action.issueClose iid]
            else []
        | none => []
      else []

/-- The per-source-issue body of the `reconcile_issues` loop. -/
def reconcileLoop (w : World) (byIid : List (Nat × Issue))
    (byTC : List ((String × String) × Issue)) : List Issue → List Action
  | [] => []
  | ci :: rest => issueActions w byIid byTC ci ++ reconcileLoop w byIid byTC rest

/-- `reconcile_issues` from the source. -/
def reconcile_issues (w : World) (cep eep : Project) : List Action :=
  let eeIs := w.eeIssues eep.id
  [Action.issuesList, Action.issuesList]
    ++ reconcileLoop w (by_iid_map eeIs) (by_title_created_map eeIs) (w.ceIssues cep.id)

/-- Split a path on `/`. -/
def splitSlashL : List Char → List (List Char)
  | [] => [[]]
  | c :: r =>
      if c = '/' then [] :: splitSlashL r
      else
        match splitSlashL r with
        | [] => [[c]]
        | l :: ls => (c :: l) :: ls

/-- `repo_path.split("/")` with empty segments dropped, as in the source. -/
def pathParts (s : String) : List String :=
  ((splitSlashL s.data).map fun l => String.mk l).filter fun x => x ≠ ""

/-- `"/".join(parts)`. -/
def joinSlash : List String → String
  | [] => ""
  | [p] => p
  | p :: ps => p ++ "/" ++ joinSlash ps

/-- Strip a trailing `.git` from the input path, as in the source. -/
def stripDotGit (s : String) : String :=
  if s.data.reverse.take 4 = ['t', 'i', 'g', '.'] then ⟨s.data.take (s.data.length - 4)⟩
  else s

/-- The successive `current_path` values of the group-ensuring loop. -/
def groupPathsFrom (cur : String) : List String → List String
  | [] => []
  | p :: rest =>
      let np := if cur = "" then p else cur ++ "/" ++ p
      np :: groupPathsFrom np rest

/-- The group-ensuring loop of `migrate_repo`: one `ensure_group` per path
segment, threading the found or created id as the next parent. -/
def ensureGroups (w : World) : Option Nat → String → List String →
    Except HErr Unit × List Action
  | _, _, [] => (.ok (), [])
  | _, cur, p :: rest =>
      let np := if cur = "" then p else cur ++ "/" ++ p
      let er := ensure_group (w.eeGroup np) (w.eeGroupCreate np) (w.eeGroupRelookup np)
      let tr := [Action.groupLookup np]
        ++ (if er.createAttempted then [Action.groupCreate np] else [])
        ++ (if er.relookedUp then [Action.groupLookup np] else [])
      match er.outcome with
      | .error e => (.error e, tr)
      | .ok (gid, _) =>
          let r := ensureGroups w (some gid) np rest
          (r.1, tr ++ r.2)

/-- The tail of the transfer branch of `migrate_repo`, after the import
call produced a destination project id. -/
def afterImport (w : World) (pre : List Char) (cep : Project) (pid : Nat)
    (tr : List Action) : Except Err Unit × List Action :=
  match w.importWait pid with
  | .error e => (.error e, tr)
  | .ok _ =>
      match w.eeProjectById pid with
      | none => (.error .badProject, tr)
      | some eep =>
          let u := update_ci_includes w pre eep
          match u.1 with
          | .error e => (.error e, tr ++ u.2)
          | .ok _ => (.ok (), tr ++ u.2 ++ reconcile_issues w cep eep)

/-- `migrate_repo` from the source: ensure the destination group chain,
then either reconcile an already-present destination project or run the
export/import transfer first. -/
def migrate_repo (w : World) (repoPathWithGit destRoot : String)
    (pre : List Char) : Except Err Unit × List Action :=
  let repoPath := stripDotGit repoPathWithGit
  let parts := pathParts repoPath
  if parts = [] then (.ok (), [])
  else
    let destParts := destRoot :: parts
    let g := ensureGroups w none "" destParts.dropLast
    match g.1 with
    | .error e => (.error (.http e), g.2)
    | .ok _ =>
        let destFull := joinSlash destParts
        match w.ceProject repoPath with
        | none => (.error (.ceNotFound repoPath), g.2)
        | some cep =>
            match w.eeProjectByPath destFull with
            | some eep =>
                let u := update_ci_includes w pre eep
                match u.1 with
                | .error e => (.error e, g.2 ++ u.2)
                | .ok _ => (.ok (), g.2 ++ u.2 ++ reconcile_issues w cep eep)
            | none =>
                let tr0 := g.2 ++ [Action.exportPost]
                match w.exportWait cep.id with
                | .error e => (.error e, tr0)
                | .ok _ =>
                    let tr1 := tr0 ++ [Action.exportDownload]
                    match w.downloadRes cep.id with
                    | .error e => (.error e, tr1)
                    | .ok _ =>
                        let tr2 := tr1 ++ [Action.importPost]
                        match w.importRes with
                        | .error e => (.error e, tr2)
                        | .ok idOpt =>
                            match (if pyTruthyNat idOpt then idOpt else none) with
                            | some pid => afterImport w pre cep pid tr2
                            | none =>
                                match w.eeProjectByPath destFull with
                                | none => (.error (.importNoInfo destFull), tr2)
                                | some p => afterImport w pre cep p.id tr2

/-- The error component of a project result. -/
def errOf : Except Err Unit → Option Err
  | .ok _ => none
  | .error e => some e

/-- The batch loop of `main`: try each repo, never aborting the rest. -/
def main_loop (w : World) (destRoot : String) (pre : List Char) :
    List String → List (String × Option Err)
  | [] => []
  | r :: rs =>
      (r, errOf (migrate_repo w r destRoot pre).1) :: main_loop w destRoot pre rs

/-- The stderr log of the batch loop: one entry naming the repo and the
error, for each failed project. -/
def errorLog (w : World) (destRoot : String) (pre : List Char) :
    List String → List (String × Err)
  | [] => []
  | r :: rs =>
      (match (migrate_repo w r destRoot pre).1 with
       | .error e => [(r, e)]
       | .ok _ => []) ++ errorLog w destRoot pre rs

/-- A concrete world used to instantiate theorems with hypotheses: every
group exists, the CE and EE projects exist, and project 1 carries a CI
file whose rewrite is a no-op while other projects have none. -/
def testWorld : World where
  eeGroup := fun _ => some 1
  eeGroupCreate := fun _ => .error ⟨true, 409⟩
  eeGroupRelookup := fun _ => some 1
  ceProject := fun _ => some ⟨10, none⟩
  eeProjectByPath := fun _ => some ⟨1, none⟩
  eeProjectById := fun _ => some ⟨1, none⟩
  exportWait := fun _ => .ok ()
  downloadRes := fun _ => .ok ()
  importRes := .ok none
  importWait := fun _ => .ok ()
  fileGet := fun pid _ => if pid = 1 then some ⟨some ['x']⟩ else none
  ceIssues := fun _ => []
  eeIssues := fun _ => []
  ceNotes := fun _ => []

/-! ## Scanner lemmas -/

lemma take_six_cons (c : Char) (r : List Char) : (c :: r).take 6 = c :: r.take 5 := rfl

lemma frag_head {c : Char} {r : List Char} (h : (c :: r).take 6 = frag) : c = 'i' := by
  rw [take_six_cons] at h
  simp only [frag, List.cons.injEq] at h
  exact h.1

lemma take_of_ne_i {c : Char} (r : List Char) (h : c ≠ 'i') :
    (c :: r).take 6 ≠ frag := fun hf => h (frag_head hf)

lemma subCore_nil (pre hist : List Char) (k : Nat) : subCore pre hist [] k = [] := by
  cases k <;> rfl

lemma subCore_copy (pre hist : List Char) (c : Char) (rest : List Char)
    (h : ¬((c :: rest).take 6 = frag ∧ hist.take 9 ≠ vRev)) :
    subCore pre hist (c :: rest) 0 = c :: subCore pre (c :: hist) rest 0 := by
  rw [subCore, if_neg h]

lemma subCore_match (pre hist rest : List Char) (hg : hist.take 9 ≠ vRev) :
    subCore pre hist (frag ++ rest) 0
      = pre ++ frag ++ subCore pre (frag.reverse ++ hist) rest 0 := by
  have hf : ((frag ++ rest)).take 6 = frag := by
    simp [frag]
  rw [show frag ++ rest = 'i' :: 'n' :: 'f' :: 'r' :: 'a' :: '/' :: rest from rfl] at hf ⊢
  rw [subCore, if_pos ⟨hf, hg⟩]
  rfl

lemma subCore_copy_through (pre : List Char) :
    ∀ (w h m : List Char), Copyable m w h →
      subCore pre h (w ++ m) 0 = w ++ subCore pre (w.reverse ++ h) m 0 := by
  intro w
  induction w with
  | nil => intro h m _; simp
  | cons c w ih =>
      intro h m hc
      have h1 : ¬(((c :: (w ++ m)).take 6 = frag) ∧ h.take 9 ≠ vRev) := by
        rcases hc.1 with h' | h'
        · exact fun hx => h' hx.1
        · exact fun hx => hx.2 h'
      rw [List.cons_append, subCore_copy pre h c (w ++ m) h1, ih (c :: h) m hc.2]
      simp

lemma copyable_of_no_i {w : List Char} (m h : List Char) (hw : ∀ c ∈ w, c ≠ 'i') :
    Copyable m w h := by
  induction w generalizing h with
  | nil => trivial
  | cons c w ih =>
      refine ⟨Or.inl (take_of_ne_i _ (hw c (by simp))), ih _ fun d hd => hw d (by simp [hd])⟩

lemma copyable_append {w₁ w₂ : List Char} (m h : List Char)
    (hw : ∀ c ∈ w₁, c ≠ 'i') (h₂ : Copyable m w₂ (w₁.reverse ++ h)) :
    Copyable m (w₁ ++ w₂) h := by
  induction w₁ generalizing h with
  | nil => simpa using h₂
  | cons c w ih =>
      refine ⟨Or.inl (take_of_ne_i _ (hw c (by simp))), ?_⟩
      have := ih (h := c :: h) (fun d hd => hw d (by simp [hd])) (by simpa using h₂)
      simpa using this

lemma subCore_vir_peel :
    ∀ (w h m r : List Char), 'v' ∉ w →
      subCore vir h m 0 = w ++ r →
      ∃ m', m = w ++ m' ∧ r = subCore vir (w.reverse ++ h) m' 0 := by
  intro w
  induction w with
  | nil =>
      intro h m r _ he
      exact ⟨m, rfl, by simpa using he.symm⟩
  | cons c w ih =>
      intro h m r hv he
      match m with
      | [] =>
          rw [subCore_nil] at he
          exact absurd he (by simp)
      | d :: rest =>
          by_cases hcond : ((d :: rest).take 6 = frag ∧ h.take 9 ≠ vRev)
          · rw [subCore, if_pos hcond] at he
            exfalso
            rw [show vir ++ frag ++ subCore vir (d :: h) rest 5
                  = 'v' :: ('i' :: 'r' :: 'i' :: 'd' :: 'i' :: 'e' :: 'n' :: '/' ::
                    (frag ++ subCore vir (d :: h) rest 5)) from rfl] at he
            injection he with h1 _
            exact hv (h1 ▸ List.mem_cons_self c w)
          · rw [subCore_copy _ _ _ _ hcond] at he
            injection he with h1 h2
            subst h1
            obtain ⟨m', hm, hr⟩ := ih (d :: h) rest r (fun hx => hv (List.mem_cons_of_mem _ hx)) h2
            exact ⟨m', by rw [hm]; rfl, by rw [hr]; simp⟩

lemma frag_length : frag.length = 6 := rfl

lemma containsSeq_frag_cons {c : Char} {r : List Char} :
    containsSeq frag (c :: r) = false ↔
      (c :: r).take 6 ≠ frag ∧ containsSeq frag r = false := by
  rw [containsSeq, frag_length]
  simp [Bool.or_eq_false_iff]

lemma subCore_no_occurrence (pre : List Char) :
    ∀ (l h : List Char), containsSeq frag l = false → subCore pre h l 0 = l := by
  intro l
  induction l with
  | nil => intro h _; simp [subCore_nil]
  | cons c r ih =>
      intro h hc
      obtain ⟨h1, h2⟩ := containsSeq_frag_cons.mp hc
      rw [subCore_copy _ _ _ _ (fun hx => h1 hx.1), ih (c :: h) h2]

lemma replace_infra_eq_subCore (pre l : List Char) :
    replace_infra pre l = subCore pre [] l 0 := by
  rw [replace_infra]
  by_cases h : containsSeq frag l
  · rw [if_pos h]
  · rw [if_neg h, subCore_no_occurrence pre l [] (by simpa using h)]

lemma subCore_ne_nil (pre h : List Char) (c : Char) (r : List Char) :
    subCore pre h (c :: r) 0 ≠ [] := by
  by_cases hcond : ((c :: r).take 6 = frag ∧ h.take 9 ≠ vRev)
  · rw [subCore, if_pos hcond]
    simp [frag]
  · rw [subCore_copy _ _ _ _ hcond]
    simp

lemma subCore_head (pre h : List Char) (c : Char) (r : List Char) :
    subCore pre h (c :: r) 0 = c :: subCore pre (c :: h) r 0
    ∨ ∃ t, subCore pre h (c :: r) 0 = pre ++ frag ++ t := by
  by_cases hcond : ((c :: r).take 6 = frag ∧ h.take 9 ≠ vRev)
  · exact Or.inr ⟨_, by rw [subCore, if_pos hcond]⟩
  · exact Or.inl (subCore_copy _ _ _ _ hcond)

lemma subCore_mem_aux :
    ∀ (n : Nat) (l h : List Char) (k : Nat) (x : Char), l.length ≤ n →
      x ∈ subCore vir h l k → x ∈ vir ∨ x ∈ frag ∨ x ∈ l := by
  intro n
  induction n with
  | zero =>
      intro l h k x hlen hx
      rw [List.length_eq_zero.mp (Nat.le_zero.mp hlen)] at hx
      rw [subCore_nil] at hx
      exact absurd hx (List.not_mem_nil x)
  | succ n ih =>
      intro l h k x hlen hx
      match l with
      | [] =>
          rw [subCore_nil] at hx
          exact absurd hx (List.not_mem_nil x)
      | c :: rest =>
          have hrest : rest.length ≤ n := by
            simpa using Nat.lt_succ_iff.mp (Nat.lt_of_lt_of_le (by simp) hlen)
          match k with
          | Nat.succ k' =>
              rw [subCore] at hx
              rcases ih rest (c :: h) k' x hrest hx with h' | h' | h'
              · exact Or.inl h'
              · exact Or.inr (Or.inl h')
              · exact Or.inr (Or.inr (List.mem_cons_of_mem _ h'))
          | 0 =>
              by_cases hcond : ((c :: rest).take 6 = frag ∧ h.take 9 ≠ vRev)
              · rw [subCore, if_pos hcond] at hx
                rcases List.mem_append.mp hx with h' | h'
                · rcases List.mem_append.mp h' with h'' | h''
                  · exact Or.inl h''
                  · exact Or.inr (Or.inl h'')
                · rcases ih rest (c :: h) 5 x hrest h' with h'' | h'' | h''
                  · exact Or.inl h''
                  · exact Or.inr (Or.inl h'')
                  · exact Or.inr (Or.inr (List.mem_cons_of_mem _ h''))
              · rw [subCore_copy _ _ _ _ hcond] at hx
                rcases List.mem_cons.mp hx with h' | h'
                · exact Or.inr (Or.inr (h' ▸ List.mem_cons_self c rest))
                · rcases ih rest (c :: h) 0 x hrest h' with h'' | h'' | h''
                  · exact Or.inl h''
                  · exact Or.inr (Or.inl h'')
                  · exact Or.inr (Or.inr (List.mem_cons_of_mem _ h''))

lemma subCore_no_nl {l : List Char} (h : List Char) (hl : '\n' ∉ l) :
    '\n' ∉ subCore vir h l 0 := by
  intro hx
  rcases subCore_mem_aux l.length l h 0 '\n' le_rfl hx with h' | h' | h'
  · exact absurd h' (by decide)
  · exact absurd h' (by decide)
  · exact hl h'

lemma peel_step {c : Char} {R b a : List Char}
    (he : c :: R = a ++ frag ++ b) :
    (a = [] ∧ frag ++ b = c :: R) ∨ ∃ a', a = c :: a' ∧ R = a' ++ frag ++ b := by
  match a with
  | [] => exact Or.inl ⟨rfl, by simpa using he.symm⟩
  | x :: a' =>
      simp only [List.cons_append] at he
      injection he with h1 h2
      exact Or.inr ⟨a', by rw [h1], h2⟩

/-- Every occurrence of `infra/` in the output of the scanner run with the
`viridien/` replacement namespace is preceded, in the output, by
`viridien/` (looking further back into the history when the occurrence is
near the start). -/
lemma subCore_vir_guarded :
    ∀ (n : Nat) (l hist : List Char), l.length ≤ n →
      ∀ (a b : List Char), subCore vir hist l 0 = a ++ frag ++ b →
        (a.reverse ++ hist).take 9 = vRev := by
  intro n
  induction n with
  | zero =>
      intro l hist hlen a b he
      rw [List.length_eq_zero.mp (Nat.le_zero.mp hlen), subCore_nil] at he
      exact absurd he.symm (by simp [frag])
  | succ n ih =>
      intro l hist hlen a b he
      match l with
      | [] =>
          rw [subCore_nil] at he
          exact absurd he.symm (by simp [frag])
      | c :: rest =>
          by_cases hcond : ((c :: rest).take 6 = frag ∧ hist.take 9 ≠ vRev)
          · have hl : c :: rest = frag ++ (c :: rest).drop 6 := by
              conv_lhs => rw [← List.take_append_drop 6 (c :: rest)]
              rw [hcond.1]
            rw [hl, subCore_match _ _ _ hcond.2] at he
            have hlen6 : ((c :: rest).drop 6).length ≤ n := by
              simp at hlen ⊢
              omega
            rw [show vir ++ frag ++ subCore vir (frag.reverse ++ hist) ((c :: rest).drop 6) 0
                  = 'v' :: 'i' :: 'r' :: 'i' :: 'd' :: 'i' :: 'e' :: 'n' :: '/' ::
                    'i' :: 'n' :: 'f' :: 'r' :: 'a' :: '/' ::
                    subCore vir (frag.reverse ++ hist) ((c :: rest).drop 6) 0 from rfl] at he
            rcases peel_step he with ⟨rfl, hfb⟩ | ⟨a1, rfl, he1⟩
            · simp [frag] at hfb
            rcases peel_step he1 with ⟨rfl, hfb⟩ | ⟨a2, rfl, he2⟩
            · simp [frag] at hfb
            rcases peel_step he2 with ⟨rfl, hfb⟩ | ⟨a3, rfl, he3⟩
            · simp [frag] at hfb
            rcases peel_step he3 with ⟨rfl, hfb⟩ | ⟨a4, rfl, he4⟩
            · simp [frag] at hfb
            rcases peel_step he4 with ⟨rfl, hfb⟩ | ⟨a5, rfl, he5⟩
            · simp [frag] at hfb
            rcases peel_step he5 with ⟨rfl, hfb⟩ | ⟨a6, rfl, he6⟩
            · simp [frag] at hfb
            rcases peel_step he6 with ⟨rfl, hfb⟩ | ⟨a7, rfl, he7⟩
            · simp [frag] at hfb
            rcases peel_step he7 with ⟨rfl, hfb⟩ | ⟨a8, rfl, he8⟩
            · simp [frag] at hfb
            rcases peel_step he8 with ⟨rfl, hfb⟩ | ⟨a9, rfl, he9⟩
            · simp [frag] at hfb
            rcases peel_step he9 with ⟨rfl, hfb⟩ | ⟨a10, rfl, he10⟩
            · rfl
            rcases peel_step he10 with ⟨rfl, hfb⟩ | ⟨a11, rfl, he11⟩
            · simp [frag] at hfb
            rcases peel_step he11 with ⟨rfl, hfb⟩ | ⟨a12, rfl, he12⟩
            · simp [frag] at hfb
            rcases peel_step he12 with ⟨rfl, hfb⟩ | ⟨a13, rfl, he13⟩
            · simp [frag] at hfb
            rcases peel_step he13 with ⟨rfl, hfb⟩ | ⟨a14, rfl, he14⟩
            · simp [frag] at hfb
            rcases peel_step he14 with ⟨rfl, hfb⟩ | ⟨a15, rfl, he15⟩
            · simp [frag] at hfb
            have hIH := ih ((c :: rest).drop 6) (frag.reverse ++ hist) hlen6 a15 b he15
            rcases Nat.lt_or_ge a15.length 3 with h3 | h3
            · rcases a15 with _ | ⟨x, _ | ⟨y, _ | ⟨z, t⟩⟩⟩
              · simp [frag, vRev, vir] at hIH
              · simp [frag, vRev, vir] at hIH
              · simp [frag, vRev, vir] at hIH
              · simp at h3
                omega
            · have hrev : ('v' :: 'i' :: 'r' :: 'i' :: 'd' :: 'i' :: 'e' :: 'n' :: '/' ::
                  'i' :: 'n' :: 'f' :: 'r' :: 'a' :: '/' :: a15).reverse
                  = (a15.reverse ++ frag.reverse) ++ vRev := by
                simp [frag, vRev, vir]
              rw [hrev, List.append_assoc]
              have hlen9 : 9 ≤ (a15.reverse ++ frag.reverse).length := by
                simp [frag]
                omega
              have h2 : ((a15.reverse ++ frag.reverse) ++ hist).take 9
                  = (a15.reverse ++ frag.reverse).take 9 := List.take_append_of_le_length hlen9
              calc ((a15.reverse ++ frag.reverse) ++ (vRev ++ hist)).take 9
                  = (a15.reverse ++ frag.reverse).take 9 := List.take_append_of_le_length hlen9
                _ = ((a15.reverse ++ frag.reverse) ++ hist).take 9 := h2.symm
                _ = vRev := by simpa [List.append_assoc] using hIH
          · rw [subCore_copy _ _ _ _ hcond] at he
            have hrest : rest.length ≤ n := by simp at hlen; omega
            rcases peel_step he with ⟨rfl, hfb⟩ | ⟨a1, rfl, he1⟩
            · have hc : 'i' = c := by
                have := congrArg List.head? hfb
                simpa [frag] using this
              subst hc
              have hout : subCore vir ('i' :: hist) rest 0
                  = ['n', 'f', 'r', 'a', '/'] ++ b := by
                have h' := hfb.symm
                simp only [frag, List.cons_append, List.nil_append, List.cons.injEq,
                  true_and] at h'
                simpa using h'
              obtain ⟨m', hm, -⟩ :=
                subCore_vir_peel ['n', 'f', 'r', 'a', '/'] ('i' :: hist) rest b
                  (by decide) hout
              have hfr : ('i' :: rest).take 6 = frag := by
                rw [hm]
                rfl
              have hg : hist.take 9 = vRev := by
                by_contra hne
                exact hcond ⟨hfr, hne⟩
              simpa using hg
            · have hIH := ih rest (c :: hist) hrest a1 b he1
              simpa [List.append_assoc] using hIH

/-- If every occurrence of `infra/` in `l` is guarded by `viridien/`, the
scanner copies `l` verbatim. -/
lemma subCore_all_guarded_copy (pre : List Char) :
    ∀ (l h : List Char),
      (∀ a b, l = a ++ frag ++ b → (a.reverse ++ h).take 9 = vRev) →
      subCore pre h l 0 = l := by
  intro l
  induction l with
  | nil => intro h _; exact subCore_nil ..
  | cons c rest ih =>
      intro h hg
      have hcond : ¬((c :: rest).take 6 = frag ∧ h.take 9 ≠ vRev) := by
        rintro ⟨h1, h2⟩
        have hd : c :: rest = frag ++ (c :: rest).drop 6 := by
          conv_lhs => rw [← List.take_append_drop 6 (c :: rest)]
          rw [h1]
        exact h2 (by simpa using hg [] ((c :: rest).drop 6) hd)
      rw [subCore_copy _ _ _ _ hcond]
      congr 1
      refine ih (c :: h) fun a b hab => ?_
      have := hg (c :: a) b (by rw [hab]; rfl)
      simpa [List.append_assoc] using this

/-- Applying the scanner twice with the `viridien/` namespace is the same
as applying it once. -/
lemma subCore_vir_idem (l : List Char) :
    subCore vir [] (subCore vir [] l 0) 0 = subCore vir [] l 0 := by
  apply subCore_all_guarded_copy
  intro a b hab
  simpa using subCore_vir_guarded l.length l [] le_rfl a b hab

lemma replace_infra_vir_idem (l : List Char) :
    replace_infra vir (replace_infra vir l) = replace_infra vir l := by
  rw [replace_infra_eq_subCore vir (replace_infra vir l), replace_infra_eq_subCore vir l,
    subCore_vir_idem]

/-! ## Line-shape preservation of the `viridien/` rewrite -/

lemma wsB_ne_i {c : Char} (h : wsB c = true) : c ≠ 'i' := by
  rintro rfl
  exact absurd h (by decide)

lemma subCore_split_ws (pre h m w : List Char) (hw : ∀ c ∈ w, wsB c = true) :
    subCore pre h (w ++ m) 0 = w ++ subCore pre (w.reverse ++ h) m 0 :=
  subCore_copy_through pre w h m (copyable_of_no_i m h fun c hc => wsB_ne_i (hw c hc))

lemma replace_infra_decomp (l : List Char) :
    replace_infra vir l
      = l.takeWhile wsB ++ subCore vir (l.takeWhile wsB).reverse (l.dropWhile wsB) 0 := by
  rw [replace_infra_eq_subCore]
  conv_lhs => rw [← List.takeWhile_append_dropWhile wsB l]
  rw [subCore_split_ws vir [] (l.dropWhile wsB) (l.takeWhile wsB)
    (fun c hc => List.mem_takeWhile_imp hc)]
  simp

lemma dropWhile_head_false {p : Char → Bool} :
    ∀ {l : List Char} {c : Char} {r : List Char}, l.dropWhile p = c :: r → p c = false := by
  intro l
  induction l with
  | nil => intro c r h; simp [List.dropWhile] at h
  | cons x xs ih =>
      intro c r h
      by_cases hp : p x
      · rw [List.dropWhile_cons_of_pos hp] at h
        exact ih h
      · rw [List.dropWhile_cons_of_neg hp] at h
        injection h with h1 _
        rw [h1] at hp
        simpa using hp

lemma subCore_head_not_ws {c : Char} (r h : List Char) (hc : wsB c = false) :
    ∃ x rest, subCore vir h (c :: r) 0 = x :: rest ∧ wsB x = false := by
  rcases subCore_head vir h c r with h' | ⟨t, h'⟩
  · exact ⟨c, _, h', hc⟩
  · refine ⟨'v', 'i' :: 'r' :: 'i' :: 'd' :: 'i' :: 'e' :: 'n' :: '/' :: (frag ++ t), ?_, by decide⟩
    rw [h']
    rfl

lemma replace_vir_stripped (l : List Char) :
    (replace_infra vir l).takeWhile wsB = l.takeWhile wsB ∧
    (replace_infra vir l).dropWhile wsB
      = subCore vir (l.takeWhile wsB).reverse (l.dropWhile wsB) 0 := by
  rw [replace_infra_decomp l]
  have hws : ∀ c ∈ l.takeWhile wsB, wsB c = true := fun c hc => List.mem_takeWhile_imp hc
  match hm : l.dropWhile wsB with
  | [] =>
      rw [subCore_nil]
      constructor
      · rw [List.takeWhile_append_of_pos hws]
        simp
      · rw [List.dropWhile_append_of_pos hws]
        simp [subCore_nil]
  | c :: r =>
      obtain ⟨x, rest, hx, hxw⟩ :=
        subCore_head_not_ws r (l.takeWhile wsB).reverse (dropWhile_head_false hm)
      constructor
      · rw [List.takeWhile_append_of_pos hws, hx, List.takeWhile_cons_of_neg (by simp [hxw])]
        simp
      · rw [List.dropWhile_append_of_pos hws, hx, List.dropWhile_cons_of_neg (by simp [hxw])]

lemma indentOf_replace_vir (l : List Char) :
    indentOf (replace_infra vir l) = indentOf l := by
  rw [indentOf, indentOf, (replace_vir_stripped l).1]

lemma strippedOf_replace_vir (l : List Char) :
    strippedOf (replace_infra vir l)
      = subCore vir (l.takeWhile wsB).reverse (strippedOf l) 0 :=
  (replace_vir_stripped l).2

lemma isIncStart_iff {s : List Char} : isIncStart s = true ↔ s.take 8 = inc8 := by
  simp [isIncStart]

lemma copyable_inc8 (m h : List Char) : Copyable m inc8 h := by
  simp [Copyable, inc8, frag]

lemma strippedOf_nonempty_replace_vir (l : List Char) :
    strippedOf (replace_infra vir l) = [] ↔ strippedOf l = [] := by
  rw [strippedOf, (replace_vir_stripped l).2]
  constructor
  · intro h
    match hm : l.dropWhile wsB with
    | [] => rw [strippedOf]; exact hm
    | c :: r =>
        rw [hm] at h
        exact absurd h (subCore_ne_nil _ _ _ _)
  · intro h
    rw [strippedOf] at h
    rw [h, subCore_nil]

lemma isIncStart_replace_vir_of (l : List Char) (h : isIncStart (strippedOf l) = true) :
    isIncStart (strippedOf (replace_infra vir l)) = true := by
  rw [strippedOf_replace_vir]
  have hdec : strippedOf l = inc8 ++ (strippedOf l).drop 8 := by
    conv_lhs => rw [← List.take_append_drop 8 (strippedOf l)]
    rw [isIncStart_iff.mp h]
  rw [hdec, subCore_copy_through vir inc8 _ _ (copyable_inc8 ..)]
  rw [isIncStart_iff]
  rfl

lemma isIncStart_replace_vir_to (l : List Char)
    (h : isIncStart (strippedOf (replace_infra vir l)) = true) :
    isIncStart (strippedOf l) = true := by
  rw [strippedOf_replace_vir] at h
  rw [isIncStart_iff] at h ⊢
  have hdec : subCore vir (l.takeWhile wsB).reverse (strippedOf l) 0
      = inc8 ++ (subCore vir (l.takeWhile wsB).reverse (strippedOf l) 0).drop 8 := by
    conv_lhs =>
      rw [← List.take_append_drop 8 (subCore vir (l.takeWhile wsB).reverse (strippedOf l) 0)]
    rw [h]
  obtain ⟨m', hm, -⟩ :=
    subCore_vir_peel inc8 (l.takeWhile wsB).reverse (strippedOf l) _ (by decide) hdec
  rw [hm]
  simp [inc8]

/-! ## Statewise idempotence of the line loop -/

lemma no_i_containsSeq_frag {l : List Char} (h : ∀ c ∈ l, c ≠ 'i') :
    containsSeq frag l = false := by
  induction l with
  | nil => rfl
  | cons c r ih =>
      rw [containsSeq, frag_length, Bool.or_eq_false_iff]
      refine ⟨?_, ih fun d hd => h d (List.mem_cons_of_mem _ hd)⟩
      simp only [beq_eq_false_iff_ne]
      exact take_of_ne_i _ (h c (List.mem_cons_self ..))

lemma replace_infra_all_ws (pre l : List Char) (h : strippedOf l = []) :
    replace_infra pre l = l := by
  rw [replace_infra, if_neg]
  rw [Bool.not_eq_true]
  apply no_i_containsSeq_frag
  intro c hc
  have hl : l = l.takeWhile wsB := by
    conv_lhs => rw [← List.takeWhile_append_dropWhile wsB l]
    rw [show l.dropWhile wsB = [] from h]
    simp
  rw [hl] at hc
  exact wsB_ne_i (List.mem_takeWhile_imp hc)

lemma stepLine_vir_idem (st : Option Nat) (l : List Char) :
    stepLine vir st (stepLine vir st l).1 = stepLine vir st l := by
  by_cases hinc : isIncStart (strippedOf l)
  · have h1 : stepLine vir st l = (replace_infra vir l, some (indentOf l)) := by
      rw [stepLine.eq_def]
      simp [hinc]
    rw [h1, stepLine.eq_def]
    simp [isIncStart_replace_vir_of l hinc, replace_infra_vir_idem, indentOf_replace_vir]
  · match st with
    | none =>
        have h1 : stepLine vir none l = (l, none) := by
          rw [stepLine.eq_def]
          simp [hinc]
        rw [h1, h1]
    | some ii =>
        by_cases hstr : strippedOf l = []
        · have hrep : replace_infra vir l = l := replace_infra_all_ws vir l hstr
          have h1 : stepLine vir (some ii) l = (l, some ii) := by
            rw [stepLine.eq_def]
            simp [hstr, hrep, (by decide : isIncStart ([] : List Char) = false)]
          rw [h1, h1]
        · by_cases hexit : indentOf l ≤ ii
          · have h1 : stepLine vir (some ii) l = (l, none) := by
              rw [stepLine.eq_def]
              simp [hinc, hstr, hexit]
            rw [h1, h1]
          · have h1 : stepLine vir (some ii) l = (replace_infra vir l, some ii) := by
              rw [stepLine.eq_def]
              simp [hinc, hstr, hexit]
            rw [h1]
            have hinc' : isIncStart (strippedOf (replace_infra vir l)) = false := by
              rw [Bool.eq_false_iff]
              exact fun hx => hinc (isIncStart_replace_vir_to l hx)
            have hexit' : ¬indentOf (replace_infra vir l) ≤ ii := by
              rw [indentOf_replace_vir]
              exact hexit
            rw [stepLine.eq_def]
            simp [hinc', hexit', replace_infra_vir_idem]

lemma procLines_vir_idem :
    ∀ (ls : List (List Char)) (st : Option Nat),
      procLines vir st (procLines vir st ls) = procLines vir st ls := by
  intro ls
  induction ls with
  | nil => intro st; rfl
  | cons l ls ih =>
      intro st
      rw [procLines, procLines, stepLine_vir_idem, ih]

/-! ## Splitting and joining lines -/

lemma splitNl_nl (r : List Char) : splitNl ('\n' :: r) = [] :: splitNl r := by
  rw [splitNl]
  simp

lemma splitNl_ne_nil (s : List Char) : splitNl s ≠ [] := by
  match s with
  | [] => simp [splitNl]
  | c :: r =>
      rw [splitNl]
      by_cases hc : c = '\n'
      · simp [hc]
      · rw [if_neg hc]
        rcases h : splitNl r with _ | ⟨l, ls⟩ <;> simp

lemma splitNl_cons_of_ne {c : Char} {r l : List Char} {ls : List (List Char)}
    (hc : c ≠ '\n') (h : splitNl r = l :: ls) : splitNl (c :: r) = (c :: l) :: ls := by
  rw [splitNl, if_neg hc, h]

lemma joinNl_cons_cons (l l₂ : List Char) (ls : List (List Char)) :
    joinNl (l :: l₂ :: ls) = l ++ '\n' :: joinNl (l₂ :: ls) := rfl

lemma joinNl_splitNl : ∀ s : List Char, joinNl (splitNl s) = s := by
  intro s
  induction s with
  | nil => rfl
  | cons c r ih =>
      by_cases hc : c = '\n'
      · subst hc
        rw [splitNl_nl]
        obtain ⟨x, xs, hx⟩ := List.exists_cons_of_ne_nil (splitNl_ne_nil r)
        rw [hx]
        rw [hx] at ih
        rw [joinNl_cons_cons]
        simp [ih]
      · obtain ⟨x, xs, hx⟩ := List.exists_cons_of_ne_nil (splitNl_ne_nil r)
        rw [splitNl_cons_of_ne hc hx]
        rw [hx] at ih
        match xs with
        | [] =>
            simp only [joinNl] at ih ⊢
            rw [ih]
        | y :: ys =>
            rw [joinNl_cons_cons] at ih ⊢
            rw [List.cons_append, ih]

lemma splitNl_append_nl : ∀ a : List Char, splitNl (a ++ ['\n']) = splitNl a ++ [[]] := by
  intro a
  induction a with
  | nil => rfl
  | cons c r ih =>
      by_cases hc : c = '\n'
      · subst hc
        rw [List.cons_append, splitNl_nl, splitNl_nl, ih]
        rfl
      · obtain ⟨x, xs, hx⟩ := List.exists_cons_of_ne_nil (splitNl_ne_nil r)
        rw [hx] at ih
        rw [List.cons_append, splitNl_cons_of_ne hc (by rw [ih] ; rfl),
          splitNl_cons_of_ne hc hx]
        rfl

lemma splitNl_no_nl {l : List Char} (h : '\n' ∉ l) : splitNl l = [l] := by
  induction l with
  | nil => rfl
  | cons c r ih =>
      have hc : c ≠ '\n' := fun hx => h (hx ▸ List.mem_cons_self c r)
      rw [splitNl_cons_of_ne hc (ih fun hx => h (List.mem_cons_of_mem _ hx))]

lemma splitNl_prepend {l : List Char} (r : List Char) (h : '\n' ∉ l) :
    splitNl (l ++ '\n' :: r) = l :: splitNl r := by
  induction l with
  | nil => exact splitNl_nl r
  | cons c l' ih =>
      have hc : c ≠ '\n' := fun hx => h (hx ▸ List.mem_cons_self c l')
      rw [List.cons_append,
        splitNl_cons_of_ne hc (ih fun hx => h (List.mem_cons_of_mem _ hx))]

lemma splitNl_joinNl :
    ∀ ls : List (List Char), ls ≠ [] → (∀ l ∈ ls, '\n' ∉ l) →
      splitNl (joinNl ls) = ls := by
  intro ls
  induction ls with
  | nil => intro h; exact absurd rfl h
  | cons l ls ih =>
      intro _ hnl
      match ls with
      | [] => exact splitNl_no_nl (hnl l (List.mem_cons_self ..))
      | l₂ :: ls' =>
          rw [joinNl_cons_cons, splitNl_prepend _ (hnl l (List.mem_cons_self ..)),
            ih (by simp) fun x hx => hnl x (List.mem_cons_of_mem _ hx)]

lemma endsNlB_append_nl (a : List Char) : endsNlB (a ++ ['\n']) = true := by
  simp [endsNlB]

lemma endsNlB_of_no_nl {l : List Char} (h : '\n' ∉ l) (hne : l ≠ []) :
    endsNlB l = false := by
  rw [endsNlB, beq_eq_false_iff_ne]
  intro hx
  have : l.getLast hne ∈ l := List.getLast_mem hne
  rw [List.getLast?_eq_getLast l hne] at hx
  injection hx with hx'
  exact h (hx' ▸ this)

lemma joinNl_last_props :
    ∀ ls : List (List Char), ls ≠ [] → (∀ l ∈ ls, '\n' ∉ l) →
      ls.getLast? ≠ some [] → joinNl ls ≠ [] ∧ endsNlB (joinNl ls) = false := by
  intro ls
  induction ls with
  | nil => intro h; exact absurd rfl h
  | cons l ls ih =>
      intro _ hnl hlast
      match ls with
      | [] =>
          have hl : l ≠ [] := by
            intro hx
            exact hlast (by simp [hx])
          exact ⟨hl, endsNlB_of_no_nl (hnl l (List.mem_cons_self ..)) hl⟩
      | l₂ :: ls' =>
          have hlast' : (l₂ :: ls').getLast? ≠ some [] := by
            intro hx
            apply hlast
            rw [show (l :: l₂ :: ls').getLast? = (l₂ :: ls').getLast? from by simp]
            exact hx
          obtain ⟨hne, hend⟩ := ih (by simp)
            (fun x hx => hnl x (List.mem_cons_of_mem _ hx)) hlast'
          constructor
          · rw [joinNl_cons_cons]
            simp
          · rw [joinNl_cons_cons, endsNlB,
              List.getLast?_append_of_ne_nil l (by simp),
              show ('\n' :: joinNl (l₂ :: ls')).getLast? = (joinNl (l₂ :: ls')).getLast? from by
                cases hj : joinNl (l₂ :: ls')
                · exact absurd hj hne
                · simp [hj]]
            rw [endsNlB] at hend
            exact hend

lemma endsNl_decomp {s : List Char} (h : endsNlB s = true) :
    s ≠ [] ∧ s = s.dropLast ++ ['\n'] := by
  have hs : s ≠ [] := by
    intro h'
    rw [h'] at h
    exact absurd h (by decide)
  refine ⟨hs, ?_⟩
  have hlast : s.getLast hs = '\n' := by
    rw [endsNlB, beq_iff_eq, List.getLast?_eq_getLast s hs] at h
    injection h
  conv_lhs => rw [← List.dropLast_append_getLast hs]
  rw [hlast]

lemma pySplitlines_of_endsNl {s : List Char} (h : endsNlB s = true) :
    pySplitlines s = splitNl s.dropLast := by
  obtain ⟨hs, hdec⟩ := endsNl_decomp h
  rw [pySplitlines, if_neg hs, if_pos h]
  conv_lhs => rw [hdec]
  rw [splitNl_append_nl]
  simp

lemma pySplitlines_ne_nil {t : List Char} (ht : t ≠ []) : pySplitlines t ≠ [] := by
  by_cases h : endsNlB t = true
  · rw [pySplitlines_of_endsNl h]
    exact splitNl_ne_nil _
  · rw [pySplitlines, if_neg ht, if_neg h]
    exact splitNl_ne_nil t

/-- Reassembling the split lines of a text with its own trailing-newline
flag reproduces the text. -/
lemma assembleText_pySplitlines (t : List Char) :
    assembleText (pySplitlines t) (endsNlB t) = t := by
  by_cases ht : t = []
  · subst ht
    rfl
  · by_cases hnl : endsNlB t = true
    · rw [pySplitlines_of_endsNl hnl, hnl, assembleText, joinNl_splitNl]
      simp only [if_pos]
      exact (endsNl_decomp hnl).2.symm
    · have hf : endsNlB t = false := by rwa [Bool.not_eq_true] at hnl
      rw [pySplitlines, if_neg ht, if_neg hnl, hf, assembleText, joinNl_splitNl]
      simp

/-- Splitting a reassembled list of newline-free lines recovers the lines. -/
lemma pySplitlines_assembleText (ls : List (List Char)) (b : Bool) (h0 : ls ≠ [])
    (h1 : ∀ l ∈ ls, '\n' ∉ l) (h2 : b = false → ls.getLast? ≠ some []) :
    pySplitlines (assembleText ls b) = ls := by
  cases b
  · obtain ⟨hne, hend⟩ := joinNl_last_props ls h0 h1 (h2 rfl)
    have ha : assembleText ls false = joinNl ls := by simp [assembleText]
    rw [ha, pySplitlines, if_neg hne, if_neg (by simp [hend])]
    exact splitNl_joinNl ls h0 h1
  · have ha : assembleText ls true = joinNl ls ++ ['\n'] := by simp [assembleText]
    rw [ha, pySplitlines, if_neg (by simp), if_pos (endsNlB_append_nl _), splitNl_append_nl,
      List.dropLast_concat]
    exact splitNl_joinNl ls h0 h1

lemma endsNlB_assembleText (ls : List (List Char)) (b : Bool) (h0 : ls ≠ [])
    (h1 : ∀ l ∈ ls, '\n' ∉ l) (h2 : b = false → ls.getLast? ≠ some []) :
    endsNlB (assembleText ls b) = b := by
  cases b
  · obtain ⟨-, hend⟩ := joinNl_last_props ls h0 h1 (h2 rfl)
    have ha : assembleText ls false = joinNl ls := by simp [assembleText]
    rw [ha, hend]
  · have ha : assembleText ls true = joinNl ls ++ ['\n'] := by simp [assembleText]
    rw [ha, endsNlB_append_nl]

lemma splitNl_mem_no_nl : ∀ (s : List Char) (l : List Char), l ∈ splitNl s → '\n' ∉ l := by
  intro s
  induction s with
  | nil =>
      intro l hl
      rw [show splitNl [] = [[]] from rfl] at hl
      simp at hl
      simp [hl]
  | cons c r ih =>
      intro l hl
      by_cases hc : c = '\n'
      · subst hc
        rw [splitNl_nl] at hl
        rcases List.mem_cons.mp hl with h' | h'
        · simp [h']
        · exact ih l h'
      · obtain ⟨x, xs, hx⟩ := List.exists_cons_of_ne_nil (splitNl_ne_nil r)
        rw [splitNl_cons_of_ne hc hx] at hl
        rcases List.mem_cons.mp hl with h' | h'
        · subst h'
          intro hmem
          rcases List.mem_cons.mp hmem with h'' | h''
          · exact hc h''.symm
          · exact ih x (by rw [hx]; exact List.mem_cons_self ..) h''
        · exact ih l (by rw [hx]; exact List.mem_cons_of_mem _ h')

lemma pySplitlines_mem_no_nl {s l : List Char} (h : l ∈ pySplitlines s) : '\n' ∉ l := by
  rw [pySplitlines] at h
  by_cases hs : s = []
  · rw [if_pos hs] at h
    simp at h
  · rw [if_neg hs] at h
    by_cases hnl : endsNlB s = true
    · rw [if_pos hnl] at h
      exact splitNl_mem_no_nl s l (List.dropLast_subset _ h)
    · rw [if_neg hnl] at h
      exact splitNl_mem_no_nl s l h

lemma splitNl_getLast_ne_nil :
    ∀ (s : List Char), s ≠ [] → endsNlB s = false → (splitNl s).getLast? ≠ some [] := by
  intro s
  induction s with
  | nil => intro h; exact absurd rfl h
  | cons c r ih =>
      intro _ hend
      match r with
      | [] =>
          have hc : c ≠ '\n' := by
            intro hx
            rw [hx] at hend
            exact absurd hend (by decide)
          rw [splitNl_cons_of_ne hc (show splitNl [] = [] :: [] from rfl)]
          simp
      | d :: r' =>
          have hend' : endsNlB (d :: r') = false := by
            rw [endsNlB] at hend ⊢
            rw [show (c :: d :: r').getLast? = (d :: r').getLast? from by simp] at hend
            exact hend
          have hih := ih (by simp) hend'
          by_cases hc : c = '\n'
          · subst hc
            rw [splitNl_nl]
            rw [show ([] :: splitNl (d :: r')).getLast? = (splitNl (d :: r')).getLast? from by
              cases hj : splitNl (d :: r')
              · exact absurd hj (splitNl_ne_nil _)
              · simp [hj]]
            exact hih
          · obtain ⟨x, xs, hx⟩ := List.exists_cons_of_ne_nil (splitNl_ne_nil (d :: r'))
            rw [splitNl_cons_of_ne hc hx]
            rw [hx] at hih
            match xs with
            | [] =>
                simp
            | y :: ys =>
                rw [show ((c :: x) :: y :: ys).getLast? = (y :: ys).getLast? from by simp,
                  show (x :: y :: ys).getLast? = (y :: ys).getLast? from by simp] at *
                exact hih

/-! ## Preservation through the line loop -/

lemma stepLine_fst (pre : List Char) (st : Option Nat) (l : List Char) :
    (stepLine pre st l).1 = l ∨ (stepLine pre st l).1 = replace_infra pre l := by
  rw [stepLine.eq_def]
  by_cases h : isIncStart (strippedOf l)
  · simp [h]
  · match st with
    | none => simp [h]
    | some ii =>
        by_cases h2 : strippedOf l ≠ [] ∧ indentOf l ≤ ii
        · simp [h, h2]
        · simp [h, h2]

lemma replace_infra_vir_no_nl {l : List Char} (h : '\n' ∉ l) :
    '\n' ∉ replace_infra vir l := by
  rw [replace_infra_eq_subCore]
  exact subCore_no_nl _ h

lemma replace_infra_ne_nil (pre : List Char) {l : List Char} (h : l ≠ []) :
    replace_infra pre l ≠ [] := by
  rw [replace_infra]
  by_cases hc : containsSeq frag l
  · rw [if_pos hc]
    match l with
    | [] => exact absurd rfl h
    | c :: r => exact subCore_ne_nil _ _ _ _
  · rw [if_neg hc]
    exact h

lemma procLines_length (pre : List Char) :
    ∀ (ls : List (List Char)) (st : Option Nat),
      (procLines pre st ls).length = ls.length := by
  intro ls
  induction ls with
  | nil => intro st; rfl
  | cons l ls ih => intro st; rw [procLines]; simp [ih]

lemma procLines_ne_nil (pre : List Char) {ls : List (List Char)} (st : Option Nat)
    (h : ls ≠ []) : procLines pre st ls ≠ [] := by
  intro hx
  apply h
  have := procLines_length pre ls st
  rw [hx] at this
  exact List.length_eq_zero.mp this.symm

lemma procLines_no_nl :
    ∀ (ls : List (List Char)) (st : Option Nat), (∀ l ∈ ls, '\n' ∉ l) →
      ∀ l' ∈ procLines vir st ls, '\n' ∉ l' := by
  intro ls
  induction ls with
  | nil => intro st _ l' hl'; simp [procLines] at hl'
  | cons l ls ih =>
      intro st hnl l' hl'
      rw [procLines] at hl'
      rcases List.mem_cons.mp hl' with h' | h'
      · subst h'
        rcases stepLine_fst vir st l with h'' | h'' <;> rw [h'']
        · exact hnl l (List.mem_cons_self ..)
        · exact replace_infra_vir_no_nl (hnl l (List.mem_cons_self ..))
      · exact ih _ (fun x hx => hnl x (List.mem_cons_of_mem _ hx)) l' h'

lemma procLines_getLast_ne_nil :
    ∀ (ls : List (List Char)) (st : Option Nat), ls.getLast? ≠ some [] →
      (procLines vir st ls).getLast? ≠ some [] := by
  intro ls
  induction ls with
  | nil => intro st h; exact h
  | cons l ls ih =>
      intro st hlast
      match ls with
      | [] =>
          have hl : l ≠ [] := by
            intro hx
            exact hlast (by simp [hx])
          rw [procLines]
          simp only [procLines]
          intro hx
          simp at hx
          rcases stepLine_fst vir st l with h'' | h'' <;> rw [h''] at hx
          · exact hl hx
          · exact replace_infra_ne_nil vir hl hx
      | l₂ :: ls' =>
          have hlast' : (l₂ :: ls').getLast? ≠ some [] := by
            intro hx
            apply hlast
            rw [show (l :: l₂ :: ls').getLast? = (l₂ :: ls').getLast? from by simp]
            exact hx
          rw [procLines]
          have hne := procLines_ne_nil vir (stepLine vir st l).2 (show l₂ :: ls' ≠ [] by simp)
          rw [show ((stepLine vir st l).1 :: procLines vir (stepLine vir st l).2 (l₂ :: ls')).getLast?
              = (procLines vir (stepLine vir st l).2 (l₂ :: ls')).getLast? from by
            cases hj : procLines vir (stepLine vir st l).2 (l₂ :: ls')
            · exact absurd hj hne
            · simp [hj]]
          exact ih _ hlast'

/-- Applying `prefix_infra_includes` with the default prefix `viridien/`
twice is the same as applying it once. -/
lemma prefix_infra_includes_vir_idem (t : List Char) :
    prefix_infra_includes (prefix_infra_includes t vir) vir
      = prefix_infra_includes t vir := by
  by_cases h1 : (containsSeq inc7 t && containsSeq frag t) = true
  · have ht : t ≠ [] := by
      intro hx
      rw [hx] at h1
      exact absurd h1 (by decide)
    have ht1 : prefix_infra_includes t vir
        = assembleText (procLines vir none (pySplitlines t)) (endsNlB t) := by
      rw [prefix_infra_includes, if_pos h1]
    rw [ht1]
    by_cases h2 : (containsSeq inc7 (assembleText (procLines vir none (pySplitlines t))
        (endsNlB t)) && containsSeq frag (assembleText (procLines vir none (pySplitlines t))
        (endsNlB t))) = true
    · rw [prefix_infra_includes, if_pos h2]
      have h0 : procLines vir none (pySplitlines t) ≠ [] :=
        procLines_ne_nil vir none (pySplitlines_ne_nil ht)
      have hn : ∀ l ∈ procLines vir none (pySplitlines t), '\n' ∉ l :=
        procLines_no_nl (pySplitlines t) none fun l hl => pySplitlines_mem_no_nl hl
      have hg : endsNlB t = false →
          (procLines vir none (pySplitlines t)).getLast? ≠ some [] := by
        intro hf
        apply procLines_getLast_ne_nil
        rw [pySplitlines, if_neg ht, if_neg (by simp [hf])]
        exact splitNl_getLast_ne_nil t ht hf
      rw [pySplitlines_assembleText _ _ h0 hn hg,
        endsNlB_assembleText _ _ h0 hn hg, procLines_vir_idem]
    · rw [prefix_infra_includes, if_neg h2]
  · have hid : prefix_infra_includes t vir = t := by
      rw [prefix_infra_includes, if_neg h1]
    rw [hid, prefix_infra_includes, if_neg h1]

/-! ## The scope of the rewrite: blocks, flags and substring facts -/

lemma procLines_eq_zipWith_flags (pre : List Char) :
    ∀ (ls : List (List Char)) (st : Option Nat),
      procLines pre st ls = List.zipWith (applyFlag pre) (blockFlags st ls) ls := by
  intro ls
  induction ls with
  | nil => intro st; rfl
  | cons l ls ih =>
      intro st
      rw [procLines]
      by_cases hinc : isIncStart (strippedOf l)
      · have hs : stepLine pre st l = (replace_infra pre l, some (indentOf l)) := by
          rw [stepLine.eq_def]
          simp [hinc]
        have hf : blockFlags st (l :: ls) = true :: blockFlags (some (indentOf l)) ls := by
          rw [blockFlags.eq_def]
          simp [hinc]
        rw [hs, hf]
        simp [applyFlag, ih]
      · match st with
        | none =>
            have hs : stepLine pre none l = (l, none) := by
              rw [stepLine.eq_def]
              simp [hinc]
            have hf : blockFlags none (l :: ls) = false :: blockFlags none ls := by
              rw [blockFlags.eq_def]
              simp [hinc]
            rw [hs, hf]
            simp [applyFlag, ih]
        | some ii =>
            by_cases hex : strippedOf l ≠ [] ∧ indentOf l ≤ ii
            · have hs : stepLine pre (some ii) l = (l, none) := by
                rw [stepLine.eq_def]
                simp [hinc, hex]
              have hf : blockFlags (some ii) (l :: ls) = false :: blockFlags none ls := by
                rw [blockFlags.eq_def]
                simp [hinc, hex]
              rw [hs, hf]
              simp [applyFlag, ih]
            · have hs : stepLine pre (some ii) l = (replace_infra pre l, some ii) := by
                rw [stepLine.eq_def]
                simp [hinc, hex]
              have hf : blockFlags (some ii) (l :: ls) = true :: blockFlags (some ii) ls := by
                rw [blockFlags.eq_def]
                simp [hinc, hex]
              rw [hs, hf]
              simp [applyFlag, ih]

lemma take_length_eq_iff {n l : List Char} : l.take n.length = n ↔ ∃ y, l = n ++ y := by
  constructor
  · intro h
    refine ⟨l.drop n.length, ?_⟩
    conv_lhs => rw [← List.take_append_drop n.length l]
    rw [h]
  · rintro ⟨y, rfl⟩
    exact List.take_left n y

lemma containsSeq_iff : ∀ (l n : List Char), containsSeq n l = true ↔ ∃ x y, l = x ++ n ++ y := by
  intro l
  induction l with
  | nil =>
      intro n
      rw [containsSeq, beq_iff_eq]
      constructor
      · intro h
        exact ⟨[], [], by simp [h]⟩
      · rintro ⟨x, y, hx⟩
        obtain ⟨-, h2⟩ := List.append_eq_nil.mp (List.append_eq_nil.mp hx.symm).1
        exact h2
  | cons c r ih =>
      intro n
      rw [containsSeq, Bool.or_eq_true]
      constructor
      · rintro (h | h)
        · obtain ⟨y, hy⟩ := take_length_eq_iff.mp (by exact_mod_cast beq_iff_eq.mp h)
          exact ⟨[], y, by simpa using hy⟩
        · obtain ⟨x, y, hx⟩ := (ih n).mp h
          exact ⟨c :: x, y, by simp [hx]⟩
      · rintro ⟨x, y, hx⟩
        match x with
        | [] =>
            left
            rw [beq_iff_eq]
            exact take_length_eq_iff.mpr ⟨y, by simpa using hx⟩
        | d :: x' =>
            right
            simp only [List.cons_append] at hx
            injection hx with h1 h2
            exact (ih n).mpr ⟨x', y, h2⟩

lemma containsSeq_of_part {n l t : List Char} (h : containsSeq n l = true)
    (hp : ∃ x y, t = x ++ l ++ y) : containsSeq n t = true := by
  obtain ⟨a, b, hab⟩ := (containsSeq_iff l n).mp h
  obtain ⟨x, y, hxy⟩ := hp
  refine (containsSeq_iff t n).mpr ⟨x ++ a, b ++ y, ?_⟩
  rw [hxy, hab]
  simp

lemma splitNl_decomp :
    ∀ (s : List Char) (h : List Char) (ts : List (List Char)), splitNl s = h :: ts →
      (∃ y, s = h ++ y) ∧ (∀ l ∈ ts, ∃ x y, s = x ++ l ++ y) := by
  intro s
  induction s with
  | nil =>
      intro h ts he
      rw [show splitNl [] = [[]] from rfl] at he
      injection he with h1 h2
      subst h1
      subst h2
      exact ⟨⟨[], rfl⟩, by simp⟩
  | cons c r ih =>
      intro h ts he
      by_cases hc : c = '\n'
      · subst hc
        rw [splitNl_nl] at he
        injection he with h1 h2
        subst h1
        subst h2
        refine ⟨⟨'\n' :: r, rfl⟩, ?_⟩
        intro l hl
        obtain ⟨h', ts', hs'⟩ := List.exists_cons_of_ne_nil (splitNl_ne_nil r)
        obtain ⟨⟨y, hy⟩, hrest⟩ := ih h' ts' hs'
        rw [hs'] at hl
        rcases List.mem_cons.mp hl with h'' | h''
        · exact ⟨['\n'], y, by simp [← h'', hy]⟩
        · obtain ⟨x, y, hxy⟩ := hrest l h''
          exact ⟨'\n' :: x, y, by simp [hxy]⟩
      · obtain ⟨h', ts', hs'⟩ := List.exists_cons_of_ne_nil (splitNl_ne_nil r)
        rw [splitNl_cons_of_ne hc hs'] at he
        injection he with h1 h2
        subst h2
        obtain ⟨⟨y, hy⟩, hrest⟩ := ih h' ts' hs'
        constructor
        · exact ⟨y, by rw [← h1]; simp [hy]⟩
        · intro l hl
          obtain ⟨x, y, hxy⟩ := hrest l hl
          exact ⟨c :: x, y, by simp [hxy]⟩

lemma splitNl_part {s l : List Char} (h : l ∈ splitNl s) : ∃ x y, s = x ++ l ++ y := by
  obtain ⟨h', ts', hs'⟩ := List.exists_cons_of_ne_nil (splitNl_ne_nil s)
  obtain ⟨⟨y, hy⟩, hrest⟩ := splitNl_decomp s h' ts' hs'
  rw [hs'] at h
  rcases List.mem_cons.mp h with h'' | h''
  · exact ⟨[], y, by simp [← h'', hy]⟩
  · exact hrest l h''

lemma pySplitlines_part {s l : List Char} (h : l ∈ pySplitlines s) :
    ∃ x y, s = x ++ l ++ y := by
  rw [pySplitlines] at h
  by_cases hs : s = []
  · rw [if_pos hs] at h
    simp at h
  · rw [if_neg hs] at h
    by_cases hnl : endsNlB s = true
    · rw [if_pos hnl] at h
      exact splitNl_part (List.dropLast_subset _ h)
    · rw [if_neg hnl] at h
      exact splitNl_part h

lemma strippedOf_part (l : List Char) : ∃ w, l = w ++ strippedOf l :=
  ⟨l.takeWhile wsB, (List.takeWhile_append_dropWhile wsB l).symm⟩

lemma containsSeq_inc7_of_incStart {l : List Char} (h : isIncStart (strippedOf l) = true) :
    containsSeq inc7 l = true := by
  obtain ⟨w, hw⟩ := strippedOf_part l
  have hdec : strippedOf l = inc8 ++ (strippedOf l).drop 8 := by
    conv_lhs => rw [← List.take_append_drop 8 (strippedOf l)]
    rw [isIncStart_iff.mp h]
  have hl : l = w ++ inc7 ++ (':' :: (strippedOf l).drop 8) := by
    conv_lhs => rw [hw, hdec]
    simp [inc8, inc7]
  exact (containsSeq_iff l inc7).mpr ⟨w, ':' :: (strippedOf l).drop 8, hl⟩

lemma zipWith_flags_id_of_no_frag :
    ∀ (ls : List (List Char)) (st : Option Nat) (pre : List Char),
      (∀ l ∈ ls, containsSeq frag l = false) →
      List.zipWith (applyFlag pre) (blockFlags st ls) ls = ls := by
  intro ls
  induction ls with
  | nil => intro st pre _; rfl
  | cons l ls ih =>
      intro st pre hno
      have hrep : replace_infra pre l = l := by
        rw [replace_infra, if_neg (by simp [hno l (List.mem_cons_self ..)])]
      have hnext : ∀ x ∈ ls, containsSeq frag x = false :=
        fun x hx => hno x (List.mem_cons_of_mem _ hx)
      rw [blockFlags.eq_def]
      by_cases hinc : isIncStart (strippedOf l)
      · simp [hinc, applyFlag, hrep, ih _ pre hnext]
      · match st with
        | none => simp [hinc, applyFlag, ih _ pre hnext]
        | some ii =>
            by_cases hex : strippedOf l ≠ [] ∧ indentOf l ≤ ii
            · simp [hinc, hex, applyFlag, ih _ pre hnext]
            · simp [hinc, hex, applyFlag, hrep, ih _ pre hnext]

lemma zipWith_flags_id_of_no_inc :
    ∀ (ls : List (List Char)) (pre : List Char),
      (∀ l ∈ ls, isIncStart (strippedOf l) = false) →
      List.zipWith (applyFlag pre) (blockFlags none ls) ls = ls := by
  intro ls
  induction ls with
  | nil => intro pre _; rfl
  | cons l ls ih =>
      intro pre hno
      have hinc : isIncStart (strippedOf l) = false := hno l (List.mem_cons_self ..)
      rw [blockFlags.eq_def]
      simp [hinc, applyFlag, ih pre fun x hx => hno x (List.mem_cons_of_mem _ hx)]

/-! ## The namespace guard: occurrences already prefixed are skipped -/

lemma copyable_vir_frag (m h : List Char) : Copyable m (vir ++ frag) h := by
  simp [Copyable, vir, frag, vRev]

lemma subCore_skip_vir_guarded (pre h m : List Char) :
    subCore pre h (vir ++ frag ++ m) 0
      = vir ++ frag ++ subCore pre ((vir ++ frag).reverse ++ h) m 0 := by
  have := subCore_copy_through pre (vir ++ frag) h m (copyable_vir_frag m h)
  simpa [List.append_assoc] using this

/-! ## The fallback issue map -/

lemma by_title_created_lookup :
    ∀ (issues : List Issue) (k : String × String),
      dget (by_title_created_map issues) k
        = issues.reverse.find? fun i => tcTruthy i && decide (tcKey i = k) := by
  intro issues
  induction issues with
  | nil => intro k; rfl
  | cons i rest ih =>
      intro k
      rw [by_title_created_map, dget, List.reverse_append, List.find?_append,
        show (i :: rest).reverse = rest.reverse ++ [i] from by simp, List.find?_append]
      cases hf : List.find? (fun p => decide (p.1 = k)) (by_title_created_map rest).reverse with
      | some x =>
          have hih := ih k
          rw [dget, hf] at hih
          simp only [Option.map_some'] at hih
          rw [← hih]
          simp
      | none =>
          have hih := ih k
          rw [dget, hf] at hih
          simp only [Option.map_none'] at hih
          rw [← hih]
          by_cases ht : tcTruthy i = true
          · by_cases hk : tcKey i = k
            · simp [ht, hk]
            · simp [ht, hk]
          · simp [Bool.eq_false_iff.mpr ht, ht]

/-! ## The group-ensuring loop on a fully existing hierarchy -/

lemma ensureGroups_all_found (w : World) :
    ∀ (parts : List String) (parent : Option Nat) (cur : String),
      (∀ p ∈ groupPathsFrom cur parts, w.eeGroup p ≠ none) →
      (ensureGroups w parent cur parts).1 = Except.ok ()
      ∧ (ensureGroups w parent cur parts).2
          = (groupPathsFrom cur parts).map Action.groupLookup := by
  intro parts
  induction parts with
  | nil => intro parent cur _; exact ⟨rfl, rfl⟩
  | cons p rest ih =>
      intro parent cur hall
      have hmem : (if cur = "" then p else cur ++ "/" ++ p) ∈ groupPathsFrom cur (p :: rest) := by
        rw [groupPathsFrom]
        exact List.mem_cons_self ..
      obtain ⟨g, hg⟩ := Option.ne_none_iff_exists'.mp (hall _ hmem)
      have hnext : ∀ q ∈ groupPathsFrom (if cur = "" then p else cur ++ "/" ++ p) rest,
          w.eeGroup q ≠ none := by
        intro q hq
        refine hall q ?_
        rw [groupPathsFrom]
        exact List.mem_cons_of_mem _ hq
      obtain ⟨ih1, ih2⟩ := ih (some g) (if cur = "" then p else cur ++ "/" ++ p) hnext
      rw [ensureGroups, groupPathsFrom]
      simp only [hg, ensure_group]
      simp [ih1, ih2]

/-! ## Traces of the maintenance phases -/

lemma update_ci_trace (w : World) (pre : List Char) (eep : Project) :
    (update_ci_includes w pre eep).2 = [Action.fileGet]
    ∨ (update_ci_includes w pre eep).2 = [Action.fileGet, Action.filePut] := by
  rcases hf : w.fileGet eep.id (refOf eep) with _ | fi
  · left
    simp [update_ci_includes, hf]
  · rcases hd : fi.decoded with _ | txt
    · left
      simp [update_ci_includes, hf, hd]
    · by_cases he : prefix_infra_includes txt pre = txt
      · left
        simp [update_ci_includes, hf, hd, he]
      · right
        simp [update_ci_includes, hf, hd, he]

lemma issueActions_mem (w : World) (bi : List (Nat × Issue))
    (btc : List ((String × String) × Issue)) (ci : Issue) (a : Action)
    (h : a ∈ issueActions w bi btc ci) :
    (∃ i, a = Action.notesList i) ∨ (∃ i b, a = Action.notePost i b)
    ∨ ∃ i, a = Action.issueClose i := by
  rw [issueActions.eq_def] at h
  split at h
  · simp at h
  · split at h
    · split at h
      · split at h
        · simp only [List.mem_append, List.mem_singleton] at h
          rcases h with (rfl | h) | rfl
          · exact Or.inl ⟨_, rfl⟩
          · split at h
            · simp at h
              subst h
              exact Or.inr (Or.inl ⟨_, _, rfl⟩)
            · simp at h
          · exact Or.inr (Or.inr ⟨_, rfl⟩)
        · simp at h
      · simp at h
    · simp at h

lemma reconcileLoop_mem (w : World) (bi : List (Nat × Issue))
    (btc : List ((String × String) × Issue)) :
    ∀ (cis : List Issue) (a : Action), a ∈ reconcileLoop w bi btc cis →
      (∃ i, a = Action.notesList i) ∨ (∃ i b, a = Action.notePost i b)
      ∨ ∃ i, a = Action.issueClose i := by
  intro cis
  induction cis with
  | nil => intro a h; simp [reconcileLoop] at h
  | cons ci rest ih =>
      intro a h
      rw [reconcileLoop] at h
      rcases List.mem_append.mp h with h' | h'
      · exact issueActions_mem w bi btc ci a h'
      · exact ih a h'

lemma migrate_repo_skip (w : World) (repoPath destRoot : String) (pre : List Char)
    (cep eep : Project)
    (h5 : pathParts (stripDotGit repoPath) ≠ [])
    (hok : (ensureGroups w none ""
        ((destRoot :: pathParts (stripDotGit repoPath)).dropLast)).1 = Except.ok ())
    (h2 : w.ceProject (stripDotGit repoPath) = some cep)
    (h3 : w.eeProjectByPath (joinSlash (destRoot :: pathParts (stripDotGit repoPath)))
        = some eep)
    (h4 : (update_ci_includes w pre eep).1 = Except.ok ()) :
    migrate_repo w repoPath destRoot pre
      = (Except.ok (),
          (ensureGroups w none "" ((destRoot :: pathParts (stripDotGit repoPath)).dropLast)).2
          ++ (update_ci_includes w pre eep).2 ++ reconcile_issues w cep eep) := by
  simp only [migrate_repo, if_neg h5, hok, h2, h3, h4]

lemma all_bne_eq_not_any (notes : List Note) (s : String) :
    (notes.all fun n => pyStrip n.body != s) = !(notes.any fun n => pyStrip n.body == s) := by
  induction notes with
  | nil => rfl
  | cons n ns ih =>
      rw [List.all_cons, List.any_cons, Bool.not_or, ← ih]
      simp [bne]

/-! ## Claims -/

/-- **C1 — counterexample.** The claim that the config rewrite is idempotent
for *every* prefix fails on the code: the negative lookbehind guards only
the hard-coded namespace `viridien/`, so with prefix `teamA/` a second
application prefixes the already-rewritten occurrence again. -/
theorem claim_C1_counterexample :
    prefix_infra_includes
        (prefix_infra_includes ("include:\n  - infra/a".toList) ("teamA/".toList))
        ("teamA/".toList)
      ≠ prefix_infra_includes ("include:\n  - infra/a".toList) ("teamA/".toList) := by
  decide

/-- **C1 — amended.** The config rewrite is idempotent for the default
prefix `viridien/`, the namespace the lookbehind guards: for every input
text, applying `prefix_infra_includes` twice with prefix `viridien/`
yields the same result as applying it once. -/
theorem claim_C1 (t : List Char) :
    prefix_infra_includes (prefix_infra_includes t vir) vir
      = prefix_infra_includes t vir :=
  prefix_infra_includes_vir_idem t

/-- **C2 — counterexample.** The claim that the fallback (title, created)
map contains only destination issues whose internal id did not find a
match fails on the code: an issue with a perfectly matchable internal id
(present in the id map) is also entered into the fallback map. -/
theorem claim_C2_counterexample :
    dget (build_issue_maps [⟨some 1, some "x", some "t", none, none⟩]).1 1
        = some ⟨some 1, some "x", some "t", none, none⟩
    ∧ dget (build_issue_maps [⟨some 1, some "x", some "t", none, none⟩]).2 ("x", "t")
        = some ⟨some 1, some "x", some "t", none, none⟩ := by
  decide

/-- **C2 — amended.** The fallback map keyed by (title, creation timestamp)
contains *every* destination issue whose title and timestamp are nonempty,
including issues matchable by internal id; looking up a key returns the
last such issue in iteration order (later entries overwrite earlier
ones). -/
theorem claim_C2 (issues : List Issue) (k : String × String) :
    dget (build_issue_maps issues).2 k
      = issues.reverse.find? fun i => tcTruthy i && decide (tcKey i = k) :=
  by_title_created_lookup issues k

/-- **C3 — confirmed.** For every text and prefix the rewrite equals:
split into lines, substitute exactly on the lines classified inside a YAML
`include:` block (per the spec's entry/exit rule, triggering line
included), leave every other line character-for-character unchanged, and
rejoin with the original trailing-newline convention; moreover the
per-line scanner leaves any line without an `infra/` occurrence
unchanged. -/
theorem claim_C3 :
    (∀ (t pre : List Char),
        prefix_infra_includes t pre
          = assembleText
              (List.zipWith (applyFlag pre) (blockFlags none (pySplitlines t))
                (pySplitlines t))
              (endsNlB t))
    ∧ ∀ (pre l h : List Char), containsSeq frag l = false → subCore pre h l 0 = l := by
  constructor
  · intro t pre
    by_cases h1 : (containsSeq inc7 t && containsSeq frag t) = true
    · rw [prefix_infra_includes, if_pos h1, procLines_eq_zipWith_flags]
    · rw [prefix_infra_includes, if_neg h1]
      have hd : containsSeq inc7 t = false ∨ containsSeq frag t = false := by
        by_cases hA : containsSeq inc7 t = true
        · by_cases hB : containsSeq frag t = true
          · exact absurd (by simp [hA, hB]) h1
          · exact Or.inr (Bool.eq_false_iff.mpr hB)
        · exact Or.inl (Bool.eq_false_iff.mpr hA)
      rcases hd with hA | hB
      · have hlines : ∀ l ∈ pySplitlines t, isIncStart (strippedOf l) = false := by
          intro l hl
          rw [Bool.eq_false_iff]
          intro hx
          have := containsSeq_of_part (containsSeq_inc7_of_incStart hx) (pySplitlines_part hl)
          simp [hA] at this
        rw [zipWith_flags_id_of_no_inc (pySplitlines t) pre hlines, assembleText_pySplitlines]
      · have hlines : ∀ l ∈ pySplitlines t, containsSeq frag l = false := by
          intro l hl
          rw [Bool.eq_false_iff]
          intro hx
          have := containsSeq_of_part hx (pySplitlines_part hl)
          simp [hB] at this
        rw [zipWith_flags_id_of_no_frag (pySplitlines t) none pre hlines,
          assembleText_pySplitlines]
  · exact fun pre l h hno => subCore_no_occurrence pre l h hno

/-- Witness for C3 at concrete inputs: a text whose only `infra/`
occurrence is in a job line is reproduced by the flagged form, and a line
without the fragment is copied verbatim by the scanner. -/
theorem claim_C3_witness :
    (prefix_infra_includes ("job: infra/b".toList) ("p/".toList)
        = assembleText
            (List.zipWith (applyFlag ("p/".toList))
              (blockFlags none (pySplitlines ("job: infra/b".toList)))
              (pySplitlines ("job: infra/b".toList)))
            (endsNlB ("job: infra/b".toList)))
    ∧ containsSeq frag ("echo hi".toList) = false
    ∧ subCore ("p/".toList) [] ("echo hi".toList) 0 = "echo hi".toList :=
  ⟨claim_C3.1 ("job: infra/b".toList) ("p/".toList), by decide,
    claim_C3.2 ("p/".toList) ("echo hi".toList) [] (by decide)⟩

/-- **C4 — confirmed.** An occurrence of `infra/` already preceded by the
distinguishing namespace `viridien/` is treated as already correct: for
any replacement prefix, history and continuation the scanner copies
`viridien/infra/` verbatim; in particular a text whose include block reads
`viridien/infra/x` is returned unchanged under the default prefix. -/
theorem claim_C4 :
    (∀ (pre h m : List Char),
        subCore pre h (vir ++ frag ++ m) 0
          = vir ++ frag ++ subCore pre ((vir ++ frag).reverse ++ h) m 0)
    ∧ prefix_infra_includes ("include:\n  - viridien/infra/x\n".toList) vir
        = "include:\n  - viridien/infra/x\n".toList :=
  ⟨subCore_skip_vir_guarded, by decide⟩

/-- **C5 — counterexample.** The claim that the migration note is posted
exactly when no existing note matches the canonical text *exactly* fails
on the code: the code compares `note.body.strip()`, so a note whose body
carries extra surrounding whitespace suppresses the post although no note
matches the canonical text exactly. -/
theorem claim_C5_counterexample :
    (([⟨" Migrated to EE: https://dest/issue/5"⟩] : List Note).all
        fun n => n.body != needle "https://dest/issue/5") = true
    ∧ (close_ce_issue_with_link [⟨" Migrated to EE: https://dest/issue/5"⟩]
        "https://dest/issue/5").posted = none := by
  decide

/-- **C5 — amended.** For every open source issue with a resolvable
counterpart address, the canonical note `Migrated to EE: <address>` is
posted exactly when no existing note's *whitespace-stripped* body equals
that canonical text, and the issue's state is then set to closed
unconditionally. -/
theorem claim_C5 (notes : List Note) (url : String) (h : url ≠ "") :
    ((close_ce_issue_with_link notes url).posted = some (needle url)
        ↔ (notes.all fun n => pyStrip n.body != needle url) = true)
    ∧ (close_ce_issue_with_link notes url).closed = true := by
  refine ⟨?_, rfl⟩
  by_cases hc : ce_has_migration_note notes url = true
  · have hany : (notes.any fun n => pyStrip n.body == needle url) = true := by
      rw [ce_has_migration_note, if_neg h] at hc
      exact hc
    simp [close_ce_issue_with_link, hc, all_bne_eq_not_any, hany]
  · have hany : (notes.any fun n => pyStrip n.body == needle url) = false := by
      rw [ce_has_migration_note, if_neg h] at hc
      exact Bool.eq_false_iff.mpr hc
    simp [close_ce_issue_with_link, hc, all_bne_eq_not_any, hany, h]

/-- Witness for C5: with no pre-existing notes and a nonempty address the
note is posted and the issue closed. -/
theorem claim_C5_witness :
    ("https://dest/issue/5" ≠ "")
    ∧ (((close_ce_issue_with_link [] "https://dest/issue/5").posted
          = some (needle "https://dest/issue/5")
        ↔ (([] : List Note).all
            fun n => pyStrip n.body != needle "https://dest/issue/5") = true)
        ∧ (close_ce_issue_with_link [] "https://dest/issue/5").closed = true) :=
  ⟨by decide, claim_C5 [] "https://dest/issue/5" (by decide)⟩

/-- **C6 — confirmed.** `ensure_group` returns the id of a group found by
the first lookup with `wasCreated = false` and no creation attempt; when
creation fails with a conflict-class error it re-looks-up and returns the
found id with `wasCreated = false`; when the re-lookup still finds
nothing, the original error is propagated. -/
theorem claim_C6 (l1 : Option Nat) (cr : Except HErr Nat) (l2 : Option Nat) :
    (∀ g, l1 = some g →
      ensure_group l1 cr l2 = ⟨.ok (g, false), false, false⟩)
    ∧ (∀ e g, l1 = none → cr = .error e → isConflict e = true → l2 = some g →
        (ensure_group l1 cr l2).outcome = .ok (g, false)
        ∧ (ensure_group l1 cr l2).relookedUp = true)
    ∧ ∀ e, l1 = none → cr = .error e → isConflict e = true → l2 = none →
        (ensure_group l1 cr l2).outcome = .error e := by
  refine ⟨?_, ?_, ?_⟩
  · rintro g rfl
    rfl
  · rintro e g rfl rfl hconf rfl
    rw [ensure_group]
    simp [hconf]
  · rintro e rfl rfl hconf rfl
    rw [ensure_group]
    simp [hconf]

/-- Witness for C6 at concrete responses: a found group, a conflict
resolved by re-lookup, and a conflict whose re-lookup fails. -/
theorem claim_C6_witness :
    ensure_group (some 7) (.error ⟨true, 409⟩) none
        = ⟨.ok (7, false), false, false⟩
    ∧ ((ensure_group none (.error ⟨true, 409⟩) (some 5)).outcome = .ok (5, false)
        ∧ (ensure_group none (.error ⟨true, 409⟩) (some 5)).relookedUp = true)
    ∧ (ensure_group none (.error ⟨true, 400⟩) none).outcome = .error ⟨true, 400⟩ :=
  ⟨(claim_C6 (some 7) (.error ⟨true, 409⟩) none).1 7 rfl,
    (claim_C6 none (.error ⟨true, 409⟩) (some 5)).2.1 ⟨true, 409⟩ 5 rfl rfl (by decide) rfl,
    (claim_C6 none (.error ⟨true, 400⟩) none).2.2 ⟨true, 400⟩ rfl rfl (by decide) rfl⟩

/-- **C7 — confirmed.** On a rerun where every destination group lookup
succeeds and the destination project already exists, `migrate_repo`
succeeds, makes no group-creation, export, download or import call, and
still runs the config rewriter (the CI file read occurs) and the issue
reconciler (the issue listings occur). -/
theorem claim_C7 (w : World) (repoPath destRoot : String) (pre : List Char)
    (cep eep : Project)
    (h5 : pathParts (stripDotGit repoPath) ≠ [])
    (h1 : ∀ p ∈ groupPathsFrom "" ((destRoot :: pathParts (stripDotGit repoPath)).dropLast),
        w.eeGroup p ≠ none)
    (h2 : w.ceProject (stripDotGit repoPath) = some cep)
    (h3 : w.eeProjectByPath (joinSlash (destRoot :: pathParts (stripDotGit repoPath)))
        = some eep)
    (h4 : (update_ci_includes w pre eep).1 = Except.ok ()) :
    (migrate_repo w repoPath destRoot pre).1 = Except.ok ()
    ∧ (∀ p, Action.groupCreate p ∉ (migrate_repo w repoPath destRoot pre).2)
    ∧ Action.exportPost ∉ (migrate_repo w repoPath destRoot pre).2
    ∧ Action.exportDownload ∉ (migrate_repo w repoPath destRoot pre).2
    ∧ Action.importPost ∉ (migrate_repo w repoPath destRoot pre).2
    ∧ Action.fileGet ∈ (migrate_repo w repoPath destRoot pre).2
    ∧ Action.issuesList ∈ (migrate_repo w repoPath destRoot pre).2 := by
  obtain ⟨hok, htr⟩ := ensureGroups_all_found w
    ((destRoot :: pathParts (stripDotGit repoPath)).dropLast) none "" h1
  have hskip := migrate_repo_skip w repoPath destRoot pre cep eep h5 hok h2 h3 h4
  rw [hskip]
  have hg : ∀ a : Action,
      a ∈ (ensureGroups w none ""
        ((destRoot :: pathParts (stripDotGit repoPath)).dropLast)).2 →
      ∃ q, a = Action.groupLookup q := by
    rw [htr]
    intro a ha
    obtain ⟨q, -, rfl⟩ := List.mem_map.mp ha
    exact ⟨q, rfl⟩
  have hu : ∀ a : Action, a ∈ (update_ci_includes w pre eep).2 →
      a = Action.fileGet ∨ a = Action.filePut := by
    intro a ha
    rcases update_ci_trace w pre eep with h' | h' <;> rw [h'] at ha <;> simp at ha <;>
      tauto
  have hr : ∀ a : Action, a ∈ reconcile_issues w cep eep →
      a = Action.issuesList ∨ (∃ i, a = Action.notesList i)
      ∨ (∃ i b, a = Action.notePost i b) ∨ ∃ i, a = Action.issueClose i := by
    intro a ha
    simp only [reconcile_issues] at ha
    rcases List.mem_append.mp ha with h' | h'
    · simp at h'
      exact Or.inl h'
    · exact Or.inr (reconcileLoop_mem w _ _ _ a h')
  have hsplit : ∀ a : Action,
      a ∈ (ensureGroups w none ""
            ((destRoot :: pathParts (stripDotGit repoPath)).dropLast)).2
          ++ (update_ci_includes w pre eep).2 ++ reconcile_issues w cep eep →
      (∃ q, a = Action.groupLookup q) ∨ (a = Action.fileGet ∨ a = Action.filePut)
      ∨ (a = Action.issuesList ∨ (∃ i, a = Action.notesList i)
          ∨ (∃ i b, a = Action.notePost i b) ∨ ∃ i, a = Action.issueClose i) := by
    intro a ha
    rcases List.mem_append.mp ha with h' | h'
    · rcases List.mem_append.mp h' with h'' | h''
      · exact Or.inl (hg a h'')
      · exact Or.inr (Or.inl (hu a h''))
    · exact Or.inr (Or.inr (hr a h'))
  refine ⟨rfl, ?_, ?_, ?_, ?_, ?_, ?_⟩
  · intro p hp
    rcases hsplit _ hp with ⟨q, hq⟩ | (hq | hq) | hq | ⟨i, hq⟩ | ⟨i, b, hq⟩ | ⟨i, hq⟩ <;>
      simp at hq
  · intro hp
    rcases hsplit _ hp with ⟨q, hq⟩ | (hq | hq) | hq | ⟨i, hq⟩ | ⟨i, b, hq⟩ | ⟨i, hq⟩ <;>
      simp at hq
  · intro hp
    rcases hsplit _ hp with ⟨q, hq⟩ | (hq | hq) | hq | ⟨i, hq⟩ | ⟨i, b, hq⟩ | ⟨i, hq⟩ <;>
      simp at hq
  · intro hp
    rcases hsplit _ hp with ⟨q, hq⟩ | (hq | hq) | hq | ⟨i, hq⟩ | ⟨i, b, hq⟩ | ⟨i, hq⟩ <;>
      simp at hq
  · refine List.mem_append_left _ (List.mem_append_right _ ?_)
    rcases update_ci_trace w pre eep with h' | h' <;> simp [h']
  · refine List.mem_append_right _ ?_
    simp [reconcile_issues]

/-- Witness for C7 on a concrete world where all groups and both projects
exist. -/
theorem claim_C7_witness :
    (migrate_repo testWorld "teamA/proj1" "archive" ("p/".toList)).1 = Except.ok ()
    ∧ (∀ p, Action.groupCreate p ∉ (migrate_repo testWorld "teamA/proj1" "archive" ("p/".toList)).2)
    ∧ Action.exportPost ∉ (migrate_repo testWorld "teamA/proj1" "archive" ("p/".toList)).2
    ∧ Action.exportDownload ∉ (migrate_repo testWorld "teamA/proj1" "archive" ("p/".toList)).2
    ∧ Action.importPost ∉ (migrate_repo testWorld "teamA/proj1" "archive" ("p/".toList)).2
    ∧ Action.fileGet ∈ (migrate_repo testWorld "teamA/proj1" "archive" ("p/".toList)).2
    ∧ Action.issuesList ∈ (migrate_repo testWorld "teamA/proj1" "archive" ("p/".toList)).2 :=
  claim_C7 testWorld "teamA/proj1" "archive" ("p/".toList) ⟨10, none⟩ ⟨1, none⟩
    (by decide) (by decide) (by decide) (by decide) (by decide)

/-- **C8 — confirmed.** The batch loop processes every project regardless
of failures: its result is exactly the per-project outcomes in order, and
the error log is exactly one entry naming the repo and the error for each
failed project — no error aborts the remainder. -/
theorem claim_C8 (w : World) (destRoot : String) (pre : List Char) (repos : List String) :
    main_loop w destRoot pre repos
      = repos.map (fun r => (r, errOf (migrate_repo w r destRoot pre).1))
    ∧ errorLog w destRoot pre repos
      = repos.filterMap fun r =>
          match (migrate_repo w r destRoot pre).1 with
          | .error e => some (r, e)
          | .ok _ => none := by
  refine ⟨?_, ?_⟩
  · induction repos with
    | nil => rfl
    | cons r rs ih => rw [main_loop, List.map_cons, ih]
  · induction repos with
    | nil => rfl
    | cons r rs ih =>
        rw [errorLog, List.filterMap_cons, ih]
        cases hm : (migrate_repo w r destRoot pre).1 <;> simp [hm]

/-- **C9 — confirmed.** When the rewritten CI text equals the original,
the config-update step issues no repository file-update call: it performs
only the file read and returns successfully. -/
theorem claim_C9 (w : World) (pre : List Char) (eep : Project) (fi : FileInfo)
    (txt : List Char)
    (h1 : w.fileGet eep.id (refOf eep) = some fi)
    (h2 : fi.decoded = some txt)
    (h3 : prefix_infra_includes txt pre = txt) :
    update_ci_includes w pre eep = (Except.ok (), [Action.fileGet]) := by
  simp [update_ci_includes, h1, h2, h3]

/-- Witness for C9: a CI file whose content the rewrite leaves unchanged
results in a read but no write. -/
theorem claim_C9_witness :
    testWorld.fileGet (Project.mk 1 none).id (refOf ⟨1, none⟩) = some ⟨some ['x']⟩
    ∧ (FileInfo.mk (some ['x'])).decoded = some ['x']
    ∧ prefix_infra_includes ['x'] ("p/".toList) = ['x']
    ∧ update_ci_includes testWorld ("p/".toList) ⟨1, none⟩
        = (Except.ok (), [Action.fileGet]) :=
  ⟨by decide, by decide, by decide,
    claim_C9 testWorld ("p/".toList) ⟨1, none⟩ ⟨some ['x']⟩ ['x']
      (by decide) (by decide) (by decide)⟩

/-- **C10 — confirmed.** When the destination project has no
`.gitlab-ci.yml` at its default branch, the config-update step returns
normally as a no-op: only the file read occurs, no error and no write. -/
theorem claim_C10 (w : World) (pre : List Char) (eep : Project)
    (h : w.fileGet eep.id (refOf eep) = none) :
    update_ci_includes w pre eep = (Except.ok (), [Action.fileGet]) := by
  simp [update_ci_includes, h]

/-- Witness for C10: a project without a CI file is read and left alone. -/
theorem claim_C10_witness :
    testWorld.fileGet (Project.mk 2 none).id (refOf ⟨2, none⟩) = none
    ∧ update_ci_includes testWorld ("p/".toList) ⟨2, none⟩
        = (Except.ok (), [Action.fileGet]) :=
  ⟨by decide, claim_C10 testWorld ("p/".toList) ⟨2, none⟩ (by decide)⟩

end Migrate
